import Mathlib

/-!
# Verification of the transcript consolidator

A shallow embedding of `src/consolidator.py` (Zoom Transcript Consolidator):
the `TranscriptSegment` record, the block parser `parse_transcript_file`
(taking the already-read file content), the consolidation pass
`consolidate_segments`, and the serializer `write_consolidated_transcript`
(returning the string that would be written).

Strings are modelled as `List Char` (Python `str`); Python's `str.strip` is
`pyStrip`; the regexes of the source are implemented directly as functions
(`re.match` is prefix matching).  Python's `\d` is modelled as ASCII digits
and `\s` / `str.strip` whitespace as the ASCII whitespace characters.
A Python `ZeroDivisionError` is modelled by `Option` (`none` = raised).
-/

namespace Consolidator

/-- Abbreviation turning a Lean string literal into the `List Char` model. -/
def str (s : String) : List Char := s.data

/-- Python whitespace (ASCII part), as used by `str.strip` and regex `\s`. -/
def isPySpace (c : Char) : Bool :=
  c = ' ' || c = '\t' || c = '\n' || c = '\r' || c = '\x0b' || c = '\x0c'

/-- Remove trailing whitespace (the tail half of Python `str.strip`). -/
def stripEnd (l : List Char) : List Char :=
  (l.reverse.dropWhile isPySpace).reverse

/-- Python `str.strip()`: remove leading and trailing whitespace. -/
def pyStrip (l : List Char) : List Char :=
  stripEnd (l.dropWhile isPySpace)

/-- The segment record of `consolidator.py` (`TranscriptSegment.__init__`,
lines 14-19).  The constructor strips `text`; `mkSegment` mirrors that. -/
structure TranscriptSegment where
  start_time : List Char
  end_time : List Char
  speaker : List Char
  text : List Char
  chapter_num : Option (List Char)
deriving DecidableEq, Repr

/-- `TranscriptSegment(...)`: the Python constructor, which strips `text`
(line 18 `self.text = text.strip()`). -/
def mkSegment (s e sp tx : List Char) (ch : Option (List Char)) :
    TranscriptSegment :=
  ⟨s, e, sp, pyStrip tx, ch⟩

/-- A default segment, used only as the out-of-range default of `List.getD`
in theorem statements. -/
def emptySeg : TranscriptSegment := ⟨[], [], [], [], none⟩

/-! ## Consolidation (`consolidate_segments`, lines 88-118) -/

/-- The text-merge step of the loop body (lines 102-106):
`if cur.text and next.text: cur.text += "\n" + next.text`
`elif next.text: cur.text = next.text` (else unchanged). -/
def mergeText (a b : List Char) : List Char :=
  if a ≠ [] ∧ b ≠ [] then a ++ '\n' :: b
  else if b ≠ [] then b
  else a

/-- One merge of the loop body: combine texts and overwrite `end_time`
with the next segment's (lines 100-109). -/
def mergeSeg (cur nxt : TranscriptSegment) : TranscriptSegment :=
  { cur with text := mergeText cur.text nxt.text, end_time := nxt.end_time }

/-- The `for` loop of `consolidate_segments` (lines 96-116), with the running
accumulator `cur` (`current_segment`) made explicit. -/
def consolidateGo (cur : TranscriptSegment) :
    List TranscriptSegment → List TranscriptSegment
  | [] => [cur]
  | nxt :: rest =>
    if cur.speaker = nxt.speaker then consolidateGo (mergeSeg cur nxt) rest
    else cur :: consolidateGo nxt rest

/-- `consolidate_segments` (lines 88-118): empty input returns empty,
otherwise a left-to-right pass merging adjacent same-speaker segments. -/
def consolidate_segments : List TranscriptSegment → List TranscriptSegment
  | [] => []
  | s :: rest => consolidateGo s rest

/-! ## Maximal same-speaker runs

`runs` splits a segment list into its maximal chunks of adjacent
segments sharing one speaker — the spec's notion of "run".  It is the
specification-side decomposition against which the consolidation pass is
proved. -/

/-- Maximal adjacent same-speaker chunks of a segment list. -/
def runs : List TranscriptSegment → List (List TranscriptSegment)
  | [] => []
  | s :: rest =>
    match runs rest with
    | [] => [[s]]
    | [] :: rs => [[s]] ++ rs
    | (t :: r) :: rs =>
      if s.speaker = t.speaker then (s :: t :: r) :: rs
      else [s] :: (t :: r) :: rs

/-- Texts of a run joined by line breaks, empty texts contributing nothing
(the spec's description of the merged text). -/
def joinWith (sep : List Char) : List (List Char) → List Char
  | [] => []
  | [x] => x
  | x :: y :: rest => x ++ sep ++ joinWith sep (y :: rest)

/-- The non-empty members of `ts` joined by `"\n"`. -/
def joinNonEmpty (ts : List (List Char)) : List Char :=
  joinWith ['\n'] (ts.filter (fun t => t ≠ []))

/-- What the spec says a maximal run collapses to: first segment's
`start_time`, `speaker` and `chapter_num`, last segment's `end_time`, and
the non-empty texts joined by line breaks. -/
def collapseRun (r : List TranscriptSegment) : TranscriptSegment :=
  { start_time := (r.headD emptySeg).start_time
    end_time := (r.getLastD emptySeg).end_time
    speaker := (r.headD emptySeg).speaker
    text := joinNonEmpty (r.map (fun s => s.text))
    chapter_num := (r.headD emptySeg).chapter_num }

/-! ### Basic facts about `runs` -/

theorem runs_ne_nil_of_ne_nil (s : TranscriptSegment)
    (l : List TranscriptSegment) : runs (s :: l) ≠ [] := by
  cases h : runs l with
  | nil => simp [runs, h]
  | cons r rs =>
    cases r with
    | nil => simp [runs, h]
    | cons t r' =>
      by_cases hs : s.speaker = t.speaker <;> simp [runs, h, hs]

/-- The head run of `runs (s :: l)` starts with `s`. -/
theorem runs_cons_shape (s : TranscriptSegment) (l : List TranscriptSegment) :
    ∃ r rs, runs (s :: l) = (s :: r) :: rs := by
  cases h : runs l with
  | nil => exact ⟨[], [], by simp [runs, h]⟩
  | cons r rs =>
    cases r with
    | nil => exact ⟨[], rs, by simp [runs, h]⟩
    | cons t r' =>
      by_cases hs : s.speaker = t.speaker
      · exact ⟨t :: r', rs, by simp [runs, h, hs]⟩
      · exact ⟨[], (t :: r') :: rs, by simp [runs, h, hs]⟩

/-- Never produces an empty chunk (for a possibly-empty input list). -/
theorem runs_no_nil_chunk :
    ∀ l : List TranscriptSegment, ∀ r ∈ runs l, r ≠ [] := by
  intro l
  induction l with
  | nil => intro r hr; simp [runs] at hr
  | cons s l ih =>
    intro r hr
    cases h : runs l with
    | nil =>
      rw [h] at ih; simp [runs, h] at hr; simp [hr]
    | cons r0 rs =>
      rw [h] at ih
      cases r0 with
      | nil => exact absurd (by simp) (ih [] (by simp))
      | cons t r' =>
        by_cases hs : s.speaker = t.speaker
        · simp [runs, h, hs] at hr
          rcases hr with hr | hr
          · simp [hr]
          · exact ih r (by simp [hr])
        · simp [runs, h, hs] at hr
          rcases hr with hr | hr | hr
          · simp [hr]
          · simp [hr]
          · exact ih r (by simp [hr])

/-- Concatenating the runs gives back the list. -/
theorem runs_join : ∀ l : List TranscriptSegment, (runs l).flatten = l := by
  intro l
  induction l with
  | nil => simp [runs]
  | cons s l ih =>
    cases h : runs l with
    | nil =>
      rw [h] at ih; simp at ih; simp [runs, h, ih]
    | cons r0 rs =>
      rw [h] at ih
      cases r0 with
      | nil => simp at ih; simp [runs, h, ih]
      | cons t r' =>
        by_cases hs : s.speaker = t.speaker <;>
          simp [runs, h, hs] <;> simpa using ih

/-- Every member of a run has the run's head's speaker. -/
theorem runs_same_speaker :
    ∀ l : List TranscriptSegment, ∀ r ∈ runs l, ∀ s ∈ r,
      s.speaker = (r.headD emptySeg).speaker := by
  intro l
  induction l with
  | nil => intro r hr; simp [runs] at hr
  | cons s l ih =>
    intro r hr
    cases h : runs l with
    | nil =>
      rw [h] at ih; simp [runs, h] at hr; subst hr; simp
    | cons r0 rs =>
      rw [h] at ih
      cases r0 with
      | nil => exact absurd (by simp) (runs_no_nil_chunk l [] (by rw [h]; simp))
      | cons t r' =>
        by_cases hs : s.speaker = t.speaker
        · simp only [runs, h, hs, if_pos] at hr
          rcases List.mem_cons.1 hr with hr | hr
          · subst hr
            intro x hx
            rcases List.mem_cons.1 hx with hx | hx
            · subst hx; simp
            · have := ih (t :: r') (by simp) x hx
              simp at this; simp [this, hs]
          · exact ih r (by simp [hr])
        · simp only [runs, h, hs, if_neg, not_false_iff] at hr
          rcases List.mem_cons.1 hr with hr | hr
          · subst hr; intro x hx; simp at hx; subst hx; simp
          · rcases List.mem_cons.1 hr with hr | hr
            · subst hr; exact ih (t :: r') (by simp)
            · exact ih r (by simp [hr])

/-- Adjacent runs have different speakers (maximality). -/
theorem runs_chain :
    ∀ l : List TranscriptSegment,
      List.Chain' (fun r1 r2 =>
        (r1.headD emptySeg).speaker ≠ (r2.headD emptySeg).speaker) (runs l) := by
  intro l
  induction l with
  | nil => simp [runs]
  | cons s l ih =>
    cases h : runs l with
    | nil => simp [runs, h]
    | cons r0 rs =>
      rw [h] at ih
      cases r0 with
      | nil => exact absurd (by simp) (runs_no_nil_chunk l [] (by rw [h]; simp))
      | cons t r' =>
        by_cases hs : s.speaker = t.speaker
        · simp only [runs, h, hs, if_pos]
          cases rs with
          | nil => simp
          | cons r1 rs' =>
            refine List.chain'_cons.2 ⟨?_, (List.chain'_cons.1 ih).2⟩
            have := (List.chain'_cons.1 ih).1
            simpa [hs] using this
        · simp only [runs, h, hs, if_neg, not_false_iff]
          exact List.chain'_cons.2 ⟨by simpa using hs, ih⟩

/-! ### The merge operation is the join of non-empty texts -/

theorem mergeText_nil_left (b : List Char) : mergeText [] b = b := by
  rcases eq_or_ne b [] with hb | hb <;> simp [mergeText, hb]

theorem mergeText_nil_right (a : List Char) : mergeText a [] = a := by
  simp [mergeText]

theorem mergeText_assoc (a b c : List Char) :
    mergeText (mergeText a b) c = mergeText a (mergeText b c) := by
  rcases eq_or_ne a [] with ha | ha <;> rcases eq_or_ne b [] with hb | hb <;>
    rcases eq_or_ne c [] with hc | hc <;>
    simp [mergeText, ha, hb, hc]

theorem joinWith_newline_ne_nil (us : List (List Char)) (u : List Char)
    (hu : u ≠ []) : joinWith ['\n'] (u :: us) ≠ [] := by
  cases us with
  | nil => simpa [joinWith] using hu
  | cons v vs => simp [joinWith]

theorem joinNonEmpty_cons (x : List Char) (ts : List (List Char)) :
    joinNonEmpty (x :: ts) = mergeText x (joinNonEmpty ts) := by
  rcases eq_or_ne x [] with hx | hx
  · simp [joinNonEmpty, hx, mergeText_nil_left]
  · have hfil : (x :: ts).filter (fun t => t ≠ [])
        = x :: ts.filter (fun t => t ≠ []) := by
      rw [List.filter_cons, if_pos (by simpa using hx)]
    unfold joinNonEmpty
    rw [hfil]
    cases h : ts.filter (fun t => t ≠ []) with
    | nil => simp [joinWith, mergeText_nil_right]
    | cons u us =>
      have hu : u ≠ [] := by
        have hm : u ∈ ts.filter (fun t => t ≠ []) := by
          rw [h]; exact List.mem_cons_self u us
        simpa using List.of_mem_filter hm
      have hne : joinWith ['\n'] (u :: us) ≠ [] :=
        joinWith_newline_ne_nil us u hu
      unfold mergeText
      rw [if_pos ⟨hx, hne⟩]
      simp [joinWith]

theorem joinNonEmpty_mergeText (a b : List Char) (ts : List (List Char)) :
    joinNonEmpty (mergeText a b :: ts) = joinNonEmpty (a :: b :: ts) := by
  rw [joinNonEmpty_cons, joinNonEmpty_cons, joinNonEmpty_cons, mergeText_assoc]

theorem joinNonEmpty_singleton (t : List Char) : joinNonEmpty [t] = t := by
  rcases eq_or_ne t [] with ht | ht <;> simp [joinNonEmpty, joinWith, ht]

theorem collapseRun_singleton (s : TranscriptSegment) :
    collapseRun [s] = s := by
  cases s
  simp [collapseRun, joinNonEmpty_singleton]

/-! ### Master correspondence: the loop computes the collapse of each run -/

theorem runs_cons_speaker_eq (x y : TranscriptSegment)
    (l : List TranscriptSegment) (h : x.speaker = y.speaker) :
    ∃ r rs, runs (x :: l) = (x :: r) :: rs ∧ runs (y :: l) = (y :: r) :: rs := by
  cases hr : runs l with
  | nil => exact ⟨[], [], by simp [runs, hr], by simp [runs, hr]⟩
  | cons r0 rs =>
    cases r0 with
    | nil => exact ⟨[], rs, by simp [runs, hr], by simp [runs, hr]⟩
    | cons t r' =>
      by_cases hx : x.speaker = t.speaker
      · have hy : y.speaker = t.speaker := h ▸ hx
        exact ⟨t :: r', rs, by simp [runs, hr, hx], by simp [runs, hr, hy]⟩
      · have hy : ¬y.speaker = t.speaker := fun hy => hx (h.trans hy)
        exact ⟨[], (t :: r') :: rs, by simp [runs, hr, hx],
          by simp [runs, hr, hy]⟩

/-- One-step unfolding of `runs` on a cons cell. -/
theorem runs_cons_eq (s : TranscriptSegment) (l : List TranscriptSegment) :
    runs (s :: l) = match runs l with
      | [] => [[s]]
      | [] :: rs => [[s]] ++ rs
      | (t :: r) :: rs =>
        if s.speaker = t.speaker then (s :: t :: r) :: rs
        else [s] :: (t :: r) :: rs := rfl

/-- One-step unfolding of `consolidateGo` on a cons cell. -/
theorem consolidateGo_cons (cur nxt : TranscriptSegment)
    (rest : List TranscriptSegment) :
    consolidateGo cur (nxt :: rest) =
      if cur.speaker = nxt.speaker then consolidateGo (mergeSeg cur nxt) rest
      else cur :: consolidateGo nxt rest := rfl

theorem collapseRun_merge (cur nxt : TranscriptSegment)
    (r : List TranscriptSegment) :
    collapseRun (mergeSeg cur nxt :: r) = collapseRun (cur :: nxt :: r) := by
  have htext : joinNonEmpty ((mergeSeg cur nxt :: r).map (fun s => s.text))
      = joinNonEmpty ((cur :: nxt :: r).map (fun s => s.text)) := by
    simp only [List.map_cons]
    exact joinNonEmpty_mergeText _ _ _
  have hend : ((mergeSeg cur nxt :: r).getLastD emptySeg).end_time
      = ((cur :: nxt :: r).getLastD emptySeg).end_time := by
    cases r with
    | nil => simp [List.getLastD_cons, mergeSeg]
    | cons a r' => simp [List.getLastD_cons]
  simp only [collapseRun, List.headD_cons]
  rw [htext, hend]
  simp [mergeSeg]

theorem consolidateGo_eq_runs :
    ∀ (rest : List TranscriptSegment) (cur : TranscriptSegment),
      consolidateGo cur rest = (runs (cur :: rest)).map collapseRun := by
  intro rest
  induction rest with
  | nil =>
    intro cur
    simp [consolidateGo, runs, collapseRun_singleton]
  | cons nxt rest ih =>
    intro cur
    by_cases hs : cur.speaker = nxt.speaker
    · have hms : (mergeSeg cur nxt).speaker = nxt.speaker := hs
      obtain ⟨r, rs, hm, hn⟩ :=
        runs_cons_speaker_eq (mergeSeg cur nxt) nxt rest hms
      have hcn : runs (cur :: nxt :: rest) = (cur :: nxt :: r) :: rs := by
        rw [runs_cons_eq (l := nxt :: rest), hn]
        simp [hs]
      rw [consolidateGo_cons, if_pos hs, ih (mergeSeg cur nxt), hm, hcn]
      simp [collapseRun_merge cur nxt r]
    · obtain ⟨r, rs, hn⟩ := runs_cons_shape nxt rest
      have hcn : runs (cur :: nxt :: rest) = [cur] :: (nxt :: r) :: rs := by
        rw [runs_cons_eq (l := nxt :: rest), hn]
        simp [hs]
      rw [consolidateGo_cons, if_neg hs, ih nxt, hn, hcn]
      simp [collapseRun_singleton]

/-- `consolidate_segments` produces exactly the collapse of each maximal
same-speaker run, in order. -/
theorem consolidate_eq_map_collapse (l : List TranscriptSegment) :
    consolidate_segments l = (runs l).map collapseRun := by
  cases l with
  | nil => simp [consolidate_segments, runs]
  | cons s rest => exact consolidateGo_eq_runs rest s

/-! ### Consolidation fixes lists with pairwise-distinct adjacent speakers -/

theorem consolidateGo_fixed :
    ∀ (rest : List TranscriptSegment) (cur : TranscriptSegment),
      List.Chain' (fun a b => a.speaker ≠ b.speaker) (cur :: rest) →
      consolidateGo cur rest = cur :: rest := by
  intro rest
  induction rest with
  | nil => intro cur _; rfl
  | cons nxt rest ih =>
    intro cur h
    rw [consolidateGo_cons, if_neg (List.chain'_cons.1 h).1,
      ih nxt (List.chain'_cons.1 h).2]

theorem consolidate_chain' (l : List TranscriptSegment) :
    List.Chain' (fun a b => a.speaker ≠ b.speaker) (consolidate_segments l) := by
  rw [consolidate_eq_map_collapse]
  rw [List.chain'_map]
  exact runs_chain l

/-! ### Length of the consolidated list -/

theorem consolidateGo_length :
    ∀ (rest : List TranscriptSegment) (cur : TranscriptSegment),
      (consolidateGo cur rest).length ≤ rest.length + 1 ∧
      ((consolidateGo cur rest).length = rest.length + 1 ↔
        List.Chain' (fun a b => a.speaker ≠ b.speaker) (cur :: rest)) := by
  intro rest
  induction rest with
  | nil =>
    intro cur
    refine ⟨by simp [consolidateGo], ?_⟩
    simp [consolidateGo]
  | cons nxt rest ih =>
    intro cur
    by_cases hs : cur.speaker = nxt.speaker
    · rw [consolidateGo_cons, if_pos hs]
      have hle := (ih (mergeSeg cur nxt)).1
      simp only [List.length_cons]
      refine ⟨by omega, ?_⟩
      constructor
      · intro h; omega
      · intro h
        exact absurd hs (List.chain'_cons.1 h).1
    · rw [consolidateGo_cons, if_neg hs]
      have h1 := (ih nxt).1
      have h2 := (ih nxt).2
      simp only [List.length_cons]
      refine ⟨by omega, ?_⟩
      rw [List.chain'_cons]
      constructor
      · intro h
        exact ⟨hs, h2.1 (by omega)⟩
      · rintro ⟨-, hc⟩
        have := h2.2 hc
        omega

/-! ## Claim theorems on consolidation -/

/-- **C2**: on the three parsed segments of the scenario — `SPEAKER_A`
`00:00:00.000-->00:00:02.000` "Hi", `SPEAKER_A` `00:00:02.000-->00:00:04.000`
"there", `SPEAKER_B` `00:00:04.000-->00:00:06.000` "Hello" —
`consolidate_segments` returns exactly the two segments
`SPEAKER_A 00:00:00.000-->00:00:04.000 "Hi\nthere"` and
`SPEAKER_B 00:00:04.000-->00:00:06.000 "Hello"`. -/
theorem consolidate_scenario_three_blocks :
    consolidate_segments
      [⟨str "00:00:00.000", str "00:00:02.000", str "SPEAKER_A", str "Hi", none⟩,
       ⟨str "00:00:02.000", str "00:00:04.000", str "SPEAKER_A", str "there", none⟩,
       ⟨str "00:00:04.000", str "00:00:06.000", str "SPEAKER_B", str "Hello", none⟩]
    = [⟨str "00:00:00.000", str "00:00:04.000", str "SPEAKER_A", str "Hi\nthere", none⟩,
       ⟨str "00:00:04.000", str "00:00:06.000", str "SPEAKER_B", str "Hello", none⟩] := by
  decide

/-- **C3**: `runs` decomposes the input into its maximal adjacent
same-speaker runs (they concatenate back to the input, are non-empty,
single-speaker, and adjacent runs differ in speaker), the output of
`consolidate_segments` has one segment per run, and the `i`-th output
segment spans from the `i`-th run's first `start_time` to its last
`end_time`. -/
theorem consolidate_run_spans (l : List TranscriptSegment) :
    (runs l).flatten = l ∧
    (∀ r ∈ runs l, r ≠ [] ∧ ∀ s ∈ r, s.speaker = (r.headD emptySeg).speaker) ∧
    List.Chain' (fun r1 r2 =>
      (r1.headD emptySeg).speaker ≠ (r2.headD emptySeg).speaker) (runs l) ∧
    (consolidate_segments l).length = (runs l).length ∧
    ∀ i : Nat,
      ((consolidate_segments l).getD i emptySeg).start_time
        = (((runs l).getD i []).headD emptySeg).start_time ∧
      ((consolidate_segments l).getD i emptySeg).end_time
        = (((runs l).getD i []).getLastD emptySeg).end_time := by
  refine ⟨runs_join l,
    fun r hr => ⟨runs_no_nil_chunk l r hr, runs_same_speaker l r hr⟩,
    runs_chain l, ?_, ?_⟩
  · rw [consolidate_eq_map_collapse]; simp
  · intro i
    rw [consolidate_eq_map_collapse,
      List.getD_eq_getElem?_getD, List.getD_eq_getElem?_getD,
      List.getElem?_map]
    cases h : (runs l)[i]? with
    | none => simp
    | some r => simp [collapseRun]

/-- The three parsed segments of the spec's scenario, used as concrete
input in witnesses. -/
def demo3 : List TranscriptSegment :=
  [⟨str "00:00:00.000", str "00:00:02.000", str "SPEAKER_A", str "Hi", none⟩,
   ⟨str "00:00:02.000", str "00:00:04.000", str "SPEAKER_A", str "there", none⟩,
   ⟨str "00:00:04.000", str "00:00:06.000", str "SPEAKER_B", str "Hello", none⟩]

/-- **C3 witness**: the run-characterization part of `consolidate_run_spans`
applied to the concrete scenario list, first run, first segment. -/
theorem consolidate_run_spans_witness :
    (⟨str "00:00:00.000", str "00:00:02.000", str "SPEAKER_A", str "Hi",
        none⟩ : TranscriptSegment).speaker
      = ((([⟨str "00:00:00.000", str "00:00:02.000", str "SPEAKER_A",
              str "Hi", none⟩,
            ⟨str "00:00:02.000", str "00:00:04.000", str "SPEAKER_A",
              str "there", none⟩] : List TranscriptSegment)).headD
          emptySeg).speaker := by
  exact ((consolidate_run_spans demo3).2.1
    [⟨str "00:00:00.000", str "00:00:02.000", str "SPEAKER_A", str "Hi", none⟩,
     ⟨str "00:00:02.000", str "00:00:04.000", str "SPEAKER_A", str "there", none⟩]
    (by decide)).2
    ⟨str "00:00:00.000", str "00:00:02.000", str "SPEAKER_A", str "Hi", none⟩
    (by decide)

/-- **C4**: the `i`-th consolidated segment's `text` is the non-empty texts
of the `i`-th maximal same-speaker run joined by `"\n"` in original order
(`joinNonEmpty` filters out empty texts and joins with single line
breaks). -/
theorem consolidate_run_text (l : List TranscriptSegment) :
    ∀ i : Nat,
      ((consolidate_segments l).getD i emptySeg).text
        = joinNonEmpty (((runs l).getD i []).map (fun s => s.text)) := by
  intro i
  rw [consolidate_eq_map_collapse,
    List.getD_eq_getElem?_getD, List.getD_eq_getElem?_getD,
    List.getElem?_map]
  cases h : (runs l)[i]? with
  | none => simp [emptySeg, joinNonEmpty, joinWith]
  | some r => simp [collapseRun]

/-- **C5**: no two adjacent output segments of `consolidate_segments` share
a speaker, and consequently consolidation is idempotent. -/
theorem consolidate_adjacent_ne_and_idempotent (l : List TranscriptSegment) :
    List.Chain' (fun a b => a.speaker ≠ b.speaker) (consolidate_segments l) ∧
    consolidate_segments (consolidate_segments l) = consolidate_segments l := by
  refine ⟨consolidate_chain' l, ?_⟩
  have hchain := consolidate_chain' l
  cases h : consolidate_segments l with
  | nil => rfl
  | cons s rest =>
    rw [h] at hchain
    show consolidateGo s rest = s :: rest
    exact consolidateGo_fixed rest s hchain

/-- **C6**: the consolidated output is never longer than the input, and has
equal length exactly when no two adjacent input segments share a speaker. -/
theorem consolidate_length_le_and_eq_iff (l : List TranscriptSegment) :
    (consolidate_segments l).length ≤ l.length ∧
    ((consolidate_segments l).length = l.length ↔
      List.Chain' (fun a b => a.speaker ≠ b.speaker) l) := by
  cases l with
  | nil => simp [consolidate_segments]
  | cons s rest =>
    have h := consolidateGo_length rest s
    simpa [consolidate_segments, List.length_cons] using h

/-! ## The parser (`parse_transcript_file`, lines 24-86)

The function takes the file's content (Python reads the whole file into
`content`).  Each regex of the source is implemented directly:
`re.match` is prefix matching, `^\d+$` on a stripped line is
"non-empty and all digits", and the timestamp pattern consumes two
fixed-width `HH:MM:SS.mmm` times around `\s*-->\s*`. -/

/-- Python `block.strip().split('\n')` (split at every single newline). -/
def splitNL : List Char → List (List Char)
  | [] => [[]]
  | c :: rest =>
    if c = '\n' then [] :: splitNL rest
    else (splitNL rest).modifyHead (fun p => c :: p)

/-- Python `content.split('\n\n')`: split at each leftmost non-overlapping
occurrence of two consecutive newlines. -/
def splitNLNL : List Char → List (List Char)
  | [] => [[]]
  | [c] => [[c]]
  | c :: d :: rest =>
    if c = '\n' ∧ d = '\n' then [] :: splitNLNL rest
    else (splitNLNL (d :: rest)).modifyHead (fun p => c :: p)

/-- Regex `^\d+$` against an already-stripped line (line 51). -/
def isDigitLine (l : List Char) : Bool := !l.isEmpty && l.all Char.isDigit

def arrowChars : List Char := ['-', '-', '>']

/-- Python `'-->' in line` (line 56): substring test. -/
def containsArrow (l : List Char) : Bool :=
  l.tails.any (fun t => arrowChars.isPrefixOf t)

/-- The shape `\d{2}:\d{2}:\d{2}\.\d{3}` of one time string. -/
def timePat (l : List Char) : Bool :=
  match l with
  | [a, b, c2, d, e, f2, g, h, p2, i, j, k] =>
    a.isDigit && b.isDigit && c2 = ':' && d.isDigit && e.isDigit &&
    f2 = ':' && g.isDigit && h.isDigit && p2 = '.' && i.isDigit &&
    j.isDigit && k.isDigit
  | _ => false

/-- Consume one `\d{2}:\d{2}:\d{2}\.\d{3}` time from the front (the regex
group is fixed-width, so it is exactly the first 12 characters). -/
def takeTime (l : List Char) : Option (List Char × List Char) :=
  if timePat (l.take 12) then some (l.take 12, l.drop 12) else none

/-- `re.match(r'(\d{2}:..\.\d{3})\s*-->\s*(\d{2}:..\.\d{3})', line)`
(line 65): prefix match, trailing content ignored; returns the two groups. -/
def matchTimestampLine (l : List Char) : Option (List Char × List Char) :=
  match takeTime l with
  | none => none
  | some (t1, r1) =>
    let r2 := r1.dropWhile isPySpace
    if arrowChars.isPrefixOf r2 then
      match takeTime ((r2.drop 3).dropWhile isPySpace) with
      | none => none
      | some (t2, _) => some (t1, t2)
    else none

/-- The per-block line scan (lines 44-59): digit-only lines update
`chapter_num` and are skipped; the first line containing `-->` becomes the
(stripped) timestamp line and the remaining lines the body. -/
def scanLines (ch : Option (List Char)) :
    List (List Char) →
      Option (Option (List Char) × List Char × List (List Char))
  | [] => none
  | line :: rest =>
    if isDigitLine (pyStrip line) then scanLines (some (pyStrip line)) rest
    else if containsArrow line then some (ch, pyStrip line, rest)
    else scanLines ch rest

/-- `re.match(r'^([^:]+):\s*(.*)', full_text, re.DOTALL)` (lines 75-78):
split at the first colon, requiring at least one character before it;
returns the stripped speaker and stripped text. -/
def speakerSplit (ft : List Char) : Option (List Char × List Char) :=
  match ft.dropWhile (fun c => c ≠ ':') with
  | [] => none
  | _ :: rest =>
    if ft.takeWhile (fun c => c ≠ ':') = [] then none
    else some (pyStrip (ft.takeWhile (fun c => c ≠ ':')),
      pyStrip (rest.dropWhile isPySpace))

/-- Processing of one already-stripped block (the loop body, lines 34-84):
reject empty and single-line blocks, scan for chapter/timestamp lines,
reject blocks with no timestamp line or empty body, match the timestamp
regex, then split the body (`full_text` is the body lines re-joined by
`'\n'`) into speaker and text, falling back to `UNKNOWN`. -/
def parseBlockCore (b : List Char) : Option TranscriptSegment :=
  if b = [] then none
  else if (splitNL b).length < 2 then none
  else
    match scanLines none (splitNL b) with
    | none => none
    | some (ch, tsLine, body) =>
      if body = [] then none
      else
        match matchTimestampLine tsLine with
        | none => none
        | some (t1, t2) =>
          match speakerSplit (joinWith ['\n'] body) with
          | some (sp, tx) => some (mkSegment t1 t2 sp tx ch)
          | none =>
            some (mkSegment t1 t2 (str "UNKNOWN")
              (pyStrip (joinWith ['\n'] body)) ch)

/-- Processing of one raw block: Python strips the block for both the
emptiness check (line 35) and the line split (line 38). -/
def parseBlock (block : List Char) : Option TranscriptSegment :=
  parseBlockCore (pyStrip block)

/-- `parse_transcript_file` (lines 24-86), applied to the file content:
split the stripped content on blank lines and parse each block,
skipping malformed ones. -/
def parse_transcript_file (content : List Char) : List TranscriptSegment :=
  (splitNLNL (pyStrip content)).filterMap parseBlock

/-! ## The serializer (`__str__` line 21-22, and
`write_consolidated_transcript` lines 120-126) -/

/-- `str(segment)`: `"<start> --> <end>\n<speaker>: <text>"`. -/
def segStr (s : TranscriptSegment) : List Char :=
  s.start_time ++ str " --> " ++ s.end_time ++
    '\n' :: (s.speaker ++ ':' :: ' ' :: s.text)

/-- `write_consolidated_transcript`: the exact string written to the output
file — the rendered segments separated by one blank line. -/
def write_consolidated_transcript (segs : List TranscriptSegment) : List Char :=
  joinWith (str "\n\n") (segs.map segStr)

/-- A segment with its (never re-emitted) chapter number removed. -/
def dropChapter (s : TranscriptSegment) : TranscriptSegment :=
  { s with chapter_num := none }

/-! ## The summary statistic of `main` (line 164) -/

/-- The reduction percentage printed by `main`:
`(len(segments) - len(consolidated))/len(segments)*100`.  Python raises
`ZeroDivisionError` when `len(segments)` is zero; that is modelled as
`none`. -/
def reduction_percent (orig cons : Nat) : Option ℚ :=
  if orig = 0 then none
  else some (((orig : ℚ) - (cons : ℚ)) / (orig : ℚ) * 100)

/-- Modelled from the spec: the claim C8 reading of "the timestamp line
matches `<time> --> <time>`" as a whole-line match — the same time shapes
and `\s*-->\s*` separator as the code, but with nothing allowed after the
second time.  Used to compare the spec's wording with the code's
prefix-only `re.match`. -/
def timestamp_line_full_match (l : List Char) : Bool :=
  match takeTime l with
  | none => false
  | some (_, r1) =>
    let r2 := r1.dropWhile isPySpace
    if arrowChars.isPrefixOf r2 then
      match takeTime ((r2.drop 3).dropWhile isPySpace) with
      | none => false
      | some (_, r4) => r4.isEmpty
    else false

/-! ## Properties of `pyStrip` -/

theorem dropWhile_eq_self_of_head (p : Char → Bool) (l : List Char)
    (h : ∀ c, l.head? = some c → p c = false) : l.dropWhile p = l := by
  cases l with
  | nil => rfl
  | cons c t =>
    rw [List.dropWhile_cons, if_neg]
    simp [h c rfl]

theorem head_dropWhile_false (p : Char → Bool) :
    ∀ (l : List Char) (c : Char), (l.dropWhile p).head? = some c →
      p c = false := by
  intro l
  induction l with
  | nil => intro c h; cases h
  | cons a t ih =>
    intro c h
    rw [List.dropWhile_cons] at h
    by_cases hp : p a
    · rw [if_pos hp] at h; exact ih c h
    · rw [if_neg hp] at h
      cases h
      simpa using hp

theorem stripEnd_eq_self_of_last (l : List Char)
    (h : ∀ c, l.getLast? = some c → isPySpace c = false) : stripEnd l = l := by
  unfold stripEnd
  rw [dropWhile_eq_self_of_head _ _
    (fun c hc => h c (by rwa [List.head?_reverse] at hc))]
  exact List.reverse_reverse l

theorem pyStrip_eq_self_of (l : List Char)
    (hh : ∀ c, l.head? = some c → isPySpace c = false)
    (hl : ∀ c, l.getLast? = some c → isPySpace c = false) : pyStrip l = l := by
  unfold pyStrip
  rw [dropWhile_eq_self_of_head _ _ hh]
  exact stripEnd_eq_self_of_last _ hl

/-- The head of a stripped result is not whitespace. -/
theorem pyStrip_head_false (l : List Char) (c : Char)
    (h : (pyStrip l).head? = some c) : isPySpace c = false := by
  unfold pyStrip stripEnd at h
  rw [List.head?_reverse] at h
  have hne : (l.dropWhile isPySpace).reverse.dropWhile isPySpace ≠ [] := by
    intro he; rw [he] at h; cases h
  obtain ⟨t, ht⟩ :=
    List.dropWhile_suffix (l := (l.dropWhile isPySpace).reverse) isPySpace
  have hlast : (l.dropWhile isPySpace).reverse.getLast? = some c := by
    rw [← ht, List.getLast?_append_of_ne_nil t hne]
    exact h
  rw [List.getLast?_reverse] at hlast
  exact head_dropWhile_false isPySpace _ c hlast

/-- The last character of a stripped result is not whitespace. -/
theorem pyStrip_getLast_false (l : List Char) (c : Char)
    (h : (pyStrip l).getLast? = some c) : isPySpace c = false := by
  unfold pyStrip stripEnd at h
  rw [List.getLast?_reverse] at h
  exact head_dropWhile_false isPySpace _ c h

theorem pyStrip_idem (l : List Char) : pyStrip (pyStrip l) = pyStrip l :=
  pyStrip_eq_self_of _ (pyStrip_head_false l) (pyStrip_getLast_false l)

theorem head?_append_left (a x : List Char) (h : a ≠ []) :
    (a ++ x).head? = a.head? := by
  cases a with
  | nil => exact absurd rfl h
  | cons c t => rfl

theorem stripped_head_false (a : List Char) (ha : pyStrip a = a) (c : Char)
    (hc : a.head? = some c) : isPySpace c = false :=
  pyStrip_head_false a c (by rwa [ha])

theorem stripped_last_false (a : List Char) (ha : pyStrip a = a) (c : Char)
    (hc : a.getLast? = some c) : isPySpace c = false :=
  pyStrip_getLast_false a c (by rwa [ha])

/-- Merging two stripped texts yields a stripped text: a non-trivial merge
puts the `'\n'` strictly between two non-whitespace endpoints. -/
theorem mergeText_stripped (a b : List Char) (ha : pyStrip a = a)
    (hb : pyStrip b = b) : pyStrip (mergeText a b) = mergeText a b := by
  rcases eq_or_ne a [] with h1 | h1
  · subst h1; rw [mergeText_nil_left]; exact hb
  · rcases eq_or_ne b [] with h2 | h2
    · subst h2; rw [mergeText_nil_right]; exact ha
    · unfold mergeText
      rw [if_pos ⟨h1, h2⟩]
      apply pyStrip_eq_self_of
      · intro c hc
        rw [head?_append_left a ('\n' :: b) h1] at hc
        exact stripped_head_false a ha c hc
      · intro c hc
        rw [List.getLast?_append_of_ne_nil a (by simp)] at hc
        have hsplit : ('\n' :: b).getLast? = b.getLast? := by
          have h3 : '\n' :: b = ['\n'] ++ b := rfl
          rw [h3, List.getLast?_append_of_ne_nil _ h2]
        rw [hsplit] at hc
        exact stripped_last_false b hb c hc

theorem joinNonEmpty_stripped :
    ∀ ts : List (List Char), (∀ t ∈ ts, pyStrip t = t) →
      pyStrip (joinNonEmpty ts) = joinNonEmpty ts := by
  intro ts
  induction ts with
  | nil => intro _; rfl
  | cons x ts ih =>
    intro h
    rw [joinNonEmpty_cons]
    exact mergeText_stripped _ _ (h x (by simp))
      (ih (fun t ht => h t (by simp [ht])))

/-! ## Inversion of the block parser -/

/-- Inverting a successful `parseBlock`: the scan found a timestamp line, it
prefix-matched the timestamp pattern, and the emitted segment is built by
the constructor from the two time groups and the speaker/text split of the
body (or the `UNKNOWN` fallback). -/
theorem parseBlock_inv (block : List Char) (s : TranscriptSegment)
    (hs : parseBlock block = some s) :
    ∃ ch tsLine body t1 t2,
      scanLines none (splitNL (pyStrip block)) = some (ch, tsLine, body) ∧
      body ≠ [] ∧
      matchTimestampLine tsLine = some (t1, t2) ∧
      ((∃ sp tx, speakerSplit (joinWith ['\n'] body) = some (sp, tx) ∧
          s = mkSegment t1 t2 sp tx ch) ∨
        (speakerSplit (joinWith ['\n'] body) = none ∧
          s = mkSegment t1 t2 (str "UNKNOWN")
            (pyStrip (joinWith ['\n'] body)) ch)) := by
  unfold parseBlock parseBlockCore at hs
  by_cases hb : pyStrip block = []
  · rw [if_pos hb] at hs; cases hs
  · rw [if_neg hb] at hs
    by_cases hlen : (splitNL (pyStrip block)).length < 2
    · rw [if_pos hlen] at hs; cases hs
    · rw [if_neg hlen] at hs
      cases hscan : scanLines none (splitNL (pyStrip block)) with
      | none => rw [hscan] at hs; cases hs
      | some x =>
        obtain ⟨ch, tsLine, body⟩ := x
        rw [hscan] at hs
        dsimp only at hs
        by_cases hbody : body = []
        · rw [if_pos hbody] at hs; cases hs
        · rw [if_neg hbody] at hs
          cases hm : matchTimestampLine tsLine with
          | none => rw [hm] at hs; cases hs
          | some t =>
            obtain ⟨t1, t2⟩ := t
            rw [hm] at hs
            refine ⟨ch, tsLine, body, t1, t2, rfl, hbody, hm, ?_⟩
            cases hsp : speakerSplit (joinWith ['\n'] body) with
            | none =>
              rw [hsp] at hs
              exact Or.inr ⟨rfl, (Option.some.inj hs).symm⟩
            | some p =>
              obtain ⟨sp, tx⟩ := p
              rw [hsp] at hs
              exact Or.inl ⟨sp, tx, rfl, (Option.some.inj hs).symm⟩

/-- Any segment emitted by `parseBlock` carries stripped text (its `text`
went through the stripping constructor). -/
theorem parseBlock_text_stripped (block : List Char) (s : TranscriptSegment)
    (hs : parseBlock block = some s) : pyStrip s.text = s.text := by
  obtain ⟨ch, tsLine, body, t1, t2, -, -, -, hcase⟩ := parseBlock_inv block s hs
  rcases hcase with ⟨sp, tx, -, rfl⟩ | ⟨-, rfl⟩ <;>
    exact pyStrip_idem _

theorem speakerSplit_some_fst (ft sp tx : List Char)
    (h : speakerSplit ft = some (sp, tx)) :
    sp = pyStrip (ft.takeWhile (fun c => c ≠ ':')) := by
  unfold speakerSplit at h
  cases hd : ft.dropWhile (fun c => c ≠ ':') with
  | nil => rw [hd] at h; cases h
  | cons c rest =>
    rw [hd] at h
    dsimp only at h
    by_cases hp : ft.takeWhile (fun c => c ≠ ':') = []
    · rw [if_pos hp] at h; cases h
    · rw [if_neg hp] at h
      exact (congrArg Prod.fst (Option.some.inj h)).symm

/-! ## Claim theorems on the parser, the serializer and the statistics -/

/-- **C1** (evaluating the code at the failing input): parsing empty content
yields zero segments, consolidating the empty sequence yields the empty
sequence, serializing it writes empty output — but the reduction-percentage
statistic of `main` (line 164) unconditionally divides by the
original-segment count, so at zero parsed segments it raises
`ZeroDivisionError` (modelled as `none`) instead of being computed. -/
theorem empty_input_statistic_divides_by_zero :
    parse_transcript_file (str "") = [] ∧
    consolidate_segments [] = [] ∧
    write_consolidated_transcript [] = [] ∧
    reduction_percent
      (parse_transcript_file (str "")).length
      (consolidate_segments (parse_transcript_file (str ""))).length
      = none := by
  refine ⟨?_, rfl, rfl, ?_⟩
  · decide
  · decide

/-- **C9 counterexample**: on the block
`"00:00:00.000 --> 00:00:01.000\n : hi"` (body `" : hi"`, whose speaker
label before the first colon trims to nothing) the parser emits a segment
whose `speaker` is the empty string, refuting "non-empty speaker". -/
theorem parser_emits_empty_speaker :
    parse_transcript_file (str "00:00:00.000 --> 00:00:01.000\n : hi")
      = [⟨str "00:00:00.000", str "00:00:01.000", [], str "hi", none⟩] := by
  decide

/-- **C9 amended**: every segment the parser emits has speaker equal to the
trimmed text before the first colon of the block body (which may be empty),
or the literal `"UNKNOWN"` when the body has no colon-prefixed speaker
form. -/
theorem parser_speaker_shape (block : List Char) (s : TranscriptSegment)
    (hs : parseBlock block = some s) :
    ∃ ch tsLine body,
      scanLines none (splitNL (pyStrip block)) = some (ch, tsLine, body) ∧
      (s.speaker
          = pyStrip ((joinWith ['\n'] body).takeWhile (fun c => c ≠ ':')) ∨
        (speakerSplit (joinWith ['\n'] body) = none ∧
          s.speaker = str "UNKNOWN")) := by
  obtain ⟨ch, tsLine, body, t1, t2, hscan, -, -, hcase⟩ :=
    parseBlock_inv block s hs
  refine ⟨ch, tsLine, body, hscan, ?_⟩
  rcases hcase with ⟨sp, tx, hsp, rfl⟩ | ⟨hn, rfl⟩
  · exact Or.inl (speakerSplit_some_fst _ _ _ hsp)
  · exact Or.inr ⟨hn, rfl⟩

/-- **C9 amended witness**: the shape applied to the concrete block of the
counterexample, where the trimmed pre-colon label is empty. -/
theorem parser_speaker_shape_witness :
    ∃ ch tsLine body,
      scanLines none
          (splitNL (pyStrip (str "00:00:00.000 --> 00:00:01.000\n : hi")))
        = some (ch, tsLine, body) ∧
      ((⟨str "00:00:00.000", str "00:00:01.000", [], str "hi",
          none⟩ : TranscriptSegment).speaker
          = pyStrip ((joinWith ['\n'] body).takeWhile (fun c => c ≠ ':')) ∨
        (speakerSplit (joinWith ['\n'] body) = none ∧
          (⟨str "00:00:00.000", str "00:00:01.000", [], str "hi",
            none⟩ : TranscriptSegment).speaker = str "UNKNOWN")) :=
  parser_speaker_shape (str "00:00:00.000 --> 00:00:01.000\n : hi")
    ⟨str "00:00:00.000", str "00:00:01.000", [], str "hi", none⟩
    (by decide)

/-- **C8 counterexample**: the block whose timestamp line is
`"00:00:00.000 --> 00:00:01.000 JUNK"` emits a segment even though that
line does not match `<time> --> <time>` as a whole line (the code's
`re.match` only requires the pattern as a prefix). -/
theorem timestamp_trailing_content_still_emits :
    parse_transcript_file (str "00:00:00.000 --> 00:00:01.000 JUNK\nA: hi")
      = [⟨str "00:00:00.000", str "00:00:01.000", str "A", str "hi", none⟩] ∧
    timestamp_line_full_match (str "00:00:00.000 --> 00:00:01.000 JUNK")
      = false := by
  constructor <;> decide

/-- **C8 amended**: a block is skipped when its (stripped) timestamp line —
the first line containing `-->` — fails the *prefix* match against
`<time>\s*-->\s*<time>`, and every emitted segment's `start_time` and
`end_time` are the two groups of that prefix match (trailing content after
the second time is ignored). -/
theorem block_skipped_iff_timestamp_prefix_match (block : List Char) :
    (∀ ch tsLine body,
        scanLines none (splitNL (pyStrip block)) = some (ch, tsLine, body) →
        matchTimestampLine tsLine = none → parseBlock block = none) ∧
    (∀ s, parseBlock block = some s →
        ∃ ch tsLine body,
          scanLines none (splitNL (pyStrip block)) = some (ch, tsLine, body) ∧
          matchTimestampLine tsLine = some (s.start_time, s.end_time)) := by
  constructor
  · intro ch tsLine body hscan hm
    unfold parseBlock parseBlockCore
    by_cases hb : pyStrip block = []
    · rw [if_pos hb]
    · rw [if_neg hb]
      by_cases hlen : (splitNL (pyStrip block)).length < 2
      · rw [if_pos hlen]
      · rw [if_neg hlen, hscan]
        dsimp only
        by_cases hbody : body = []
        · rw [if_pos hbody]
        · rw [if_neg hbody, hm]
  · intro s hs
    obtain ⟨ch, tsLine, body, t1, t2, hscan, -, hm, hcase⟩ :=
      parseBlock_inv block s hs
    refine ⟨ch, tsLine, body, hscan, ?_⟩
    rcases hcase with ⟨sp, tx, -, rfl⟩ | ⟨-, rfl⟩ <;> exact hm

/-- **C8 amended witness**: a block whose timestamp line fails even the
prefix match is dropped. -/
theorem block_skipped_iff_timestamp_prefix_match_witness :
    parseBlock (str "hello --> there\nA: b") = none :=
  (block_skipped_iff_timestamp_prefix_match (str "hello --> there\nA: b")).1
    none (str "hello --> there") [str "A: b"] (by decide) (by decide)

/-- **C7 counterexample**: for the input
`"00:00:00.000 --> 00:00:01.000\n : hi"` the consolidated parse contains
one segment with empty speaker and text `"hi"`; its rendering
`"...\n: hi"` re-parses with speaker `"UNKNOWN"` and text `": hi"`, so the
round trip does not preserve the `speaker` and `text` field values. -/
theorem roundtrip_changes_empty_speaker :
    (parse_transcript_file (write_consolidated_transcript
        (consolidate_segments (parse_transcript_file
          (str "00:00:00.000 --> 00:00:01.000\n : hi"))))).map
        (fun s => (s.speaker, s.text))
      = [(str "UNKNOWN", str ": hi")] ∧
    (consolidate_segments (parse_transcript_file
        (str "00:00:00.000 --> 00:00:01.000\n : hi"))).map
        (fun s => (s.speaker, s.text))
      = [(([] : List Char), str "hi")] := by
  constructor <;> decide

/-- **C10**: every segment emitted by the parser carries trimmed text, and
consolidation preserves the trimmed-text invariant: a merge only joins two
already-trimmed texts around an interior newline. -/
theorem text_trimmed_invariant (content : List Char)
    (l : List TranscriptSegment) (hl : ∀ t ∈ l, pyStrip t.text = t.text) :
    (∀ s ∈ parse_transcript_file content, pyStrip s.text = s.text) ∧
    (∀ s ∈ consolidate_segments l, pyStrip s.text = s.text) := by
  constructor
  · intro s hs
    unfold parse_transcript_file at hs
    obtain ⟨b, -, hpb⟩ := List.mem_filterMap.1 hs
    exact parseBlock_text_stripped b s hpb
  · intro s hs
    rw [consolidate_eq_map_collapse] at hs
    obtain ⟨r, hr, rfl⟩ := List.mem_map.1 hs
    show pyStrip (joinNonEmpty (r.map (fun s => s.text))) = _
    apply joinNonEmpty_stripped
    intro t ht
    obtain ⟨x, hx, rfl⟩ := List.mem_map.1 ht
    apply hl
    rw [← runs_join l]
    exact List.mem_flatten.2 ⟨r, hr, hx⟩

/-- **C10 witness**: the invariant applied to the scenario content and a
concrete segment list with trimmed texts. -/
theorem text_trimmed_invariant_witness :
    (∀ s ∈ parse_transcript_file
        (str "00:00:00.000 --> 00:00:01.000\nA: hi"),
      pyStrip s.text = s.text) ∧
    (∀ s ∈ consolidate_segments
        [⟨str "00:00:00.000", str "00:00:01.000", str "A", str "hi", none⟩,
         ⟨str "00:00:01.000", str "00:00:02.000", str "A", str "yo", none⟩],
      pyStrip s.text = s.text) :=
  text_trimmed_invariant (str "00:00:00.000 --> 00:00:01.000\nA: hi")
    [⟨str "00:00:00.000", str "00:00:01.000", str "A", str "hi", none⟩,
     ⟨str "00:00:01.000", str "00:00:02.000", str "A", str "yo", none⟩]
    (by decide)

/-! ## Absence of double newlines

`hasNLNL l = false` says `l` has no two consecutive `'\n'` characters —
the invariant that makes a string safe to embed in one blank-line-separated
block. -/

def hasNLNL : List Char → Bool
  | [] => false
  | [_] => false
  | c :: d :: rest => (c = '\n' && d = '\n') || hasNLNL (d :: rest)

theorem hasNLNL_nil : hasNLNL [] = false := rfl

theorem hasNLNL_singleton (c : Char) : hasNLNL [c] = false := rfl

theorem hasNLNL_cons_cons (c d : Char) (rest : List Char) :
    hasNLNL (c :: d :: rest)
      = ((c = '\n' && d = '\n') || hasNLNL (d :: rest)) := rfl

theorem hasNLNL_of_not_mem (l : List Char) (h : '\n' ∉ l) :
    hasNLNL l = false := by
  induction l with
  | nil => rfl
  | cons c rest ih =>
    cases rest with
    | nil => rfl
    | cons d r2 =>
      rw [hasNLNL_cons_cons]
      have hc : ¬c = '\n' := fun hh => h (by simp [hh])
      have hrest : '\n' ∉ d :: r2 := fun hm => h (by simp [hm])
      simp [hc, ih hrest]

theorem hasNLNL_append_false (a b : List Char) :
    hasNLNL (a ++ b) = false ↔
      (hasNLNL a = false ∧ hasNLNL b = false ∧
        ¬(a.getLast? = some '\n' ∧ b.head? = some '\n')) := by
  induction a with
  | nil => simp [hasNLNL_nil]
  | cons c a ih =>
    cases a with
    | nil =>
      cases b with
      | nil => simp [hasNLNL_singleton, hasNLNL_nil]
      | cons d bs =>
        rw [List.singleton_append, hasNLNL_cons_cons, hasNLNL_singleton]
        by_cases hc : c = '\n' <;> by_cases hd : d = '\n' <;>
          simp [hc, hd]
    | cons c2 a2 =>
      have hlast : (c :: c2 :: a2).getLast? = (c2 :: a2).getLast? := by
        rw [show c :: c2 :: a2 = [c] ++ (c2 :: a2) from rfl,
          List.getLast?_append_of_ne_nil _ (by simp)]
      rw [List.cons_append, List.cons_append, hasNLNL_cons_cons,
        hasNLNL_cons_cons, hlast]
      constructor
      · intro h
        rw [Bool.or_eq_false_iff] at h
        obtain ⟨h1, h2⟩ := h
        obtain ⟨ha, hb, hj⟩ := ih.1 h2
        exact ⟨Bool.or_eq_false_iff.2 ⟨h1, ha⟩, hb, hj⟩
      · rintro ⟨h1, h2, h3⟩
        rw [Bool.or_eq_false_iff] at h1
        exact Bool.or_eq_false_iff.2 ⟨h1.1, ih.2 ⟨h1.2, h2, h3⟩⟩

theorem hasNLNL_append_of (a b : List Char) (ha : hasNLNL a = false)
    (hb : hasNLNL b = false)
    (hj : a.getLast? ≠ some '\n' ∨ b.head? ≠ some '\n') :
    hasNLNL (a ++ b) = false :=
  (hasNLNL_append_false a b).2 ⟨ha, hb, by tauto⟩

theorem hasNLNL_false_of_isInfix (l x : List Char) (h : hasNLNL l = false)
    (hx : x <:+: l) : hasNLNL x = false := by
  obtain ⟨s, t, hst⟩ := hx
  rw [← hst] at h
  have h1 := ((hasNLNL_append_false s (x ++ t)).1 (by rwa [List.append_assoc] at h)).2.1
  exact ((hasNLNL_append_false x t).1 h1).1

/-! ## `pyStrip` produces an infix -/

theorem stripEnd_isPrefix (l : List Char) : stripEnd l <+: l := by
  unfold stripEnd
  rw [← List.reverse_reverse l]
  exact List.reverse_prefix.2 (by
    rw [List.reverse_reverse]
    exact List.dropWhile_suffix isPySpace)

theorem pyStrip_isInfix (l : List Char) : pyStrip l <:+: l := by
  unfold pyStrip
  exact (stripEnd_isPrefix _).isInfix.trans
    (List.dropWhile_suffix isPySpace).isInfix

theorem dropWhile_append_sat (p : Char → Bool) (u y : List Char)
    (h : ∀ x ∈ u, p x) : (u ++ y).dropWhile p = y.dropWhile p := by
  induction u with
  | nil => rfl
  | cons a u2 ih =>
    rw [List.cons_append, List.dropWhile_cons, if_pos (h a (by simp))]
    exact ih (fun x hx => h x (by simp [hx]))

theorem dropWhile_append_ne (p : Char → Bool) (x y : List Char)
    (h : x.dropWhile p ≠ []) : (x ++ y).dropWhile p = x.dropWhile p ++ y := by
  induction x with
  | nil => exact absurd rfl h
  | cons a x2 ih =>
    rw [List.cons_append, List.dropWhile_cons, List.dropWhile_cons]
    by_cases hpa : p a
    · rw [if_pos hpa, if_pos hpa]
      rw [List.dropWhile_cons, if_pos hpa] at h
      exact ih h
    · rw [if_neg hpa, if_neg hpa, List.cons_append]

theorem stripEnd_append (a b : List Char) (hb : stripEnd b ≠ []) :
    stripEnd (a ++ b) = a ++ stripEnd b := by
  unfold stripEnd at hb ⊢
  rw [List.reverse_append, dropWhile_append_ne _ _ _ (by
    intro he
    rw [he] at hb
    exact hb rfl)]
  rw [List.reverse_append, List.reverse_reverse]

theorem stripEnd_eq_nil_iff (x : List Char) :
    stripEnd x = [] ↔ ∀ c ∈ x, isPySpace c := by
  unfold stripEnd
  rw [List.reverse_eq_nil_iff, List.dropWhile_eq_nil_iff]
  constructor
  · intro h c hc; exact h c (List.mem_reverse.2 hc)
  · intro h c hc; exact h c (List.mem_reverse.1 hc)

theorem prefix_head? (x y : List Char) (hp : x <+: y) (hx : x ≠ []) :
    y.head? = x.head? := by
  obtain ⟨t, ht⟩ := hp
  rw [← ht, head?_append_left x t hx]

theorem stripEnd_idem (l : List Char) : stripEnd (stripEnd l) = stripEnd l := by
  apply stripEnd_eq_self_of_last
  intro c hc
  unfold stripEnd at hc
  rw [List.getLast?_reverse] at hc
  exact head_dropWhile_false isPySpace _ c hc

theorem dropWhile_stripEnd_comm (l : List Char) :
    (stripEnd l).dropWhile isPySpace = stripEnd (l.dropWhile isPySpace) := by
  cases hd : l.dropWhile isPySpace with
  | nil =>
    have hall : ∀ x ∈ l, isPySpace x := List.dropWhile_eq_nil_iff.1 hd
    have hse : stripEnd l = [] := (stripEnd_eq_nil_iff l).2 hall
    rw [hse]
    rfl
  | cons c rest =>
    have hc : isPySpace c = false :=
      head_dropWhile_false isPySpace l c (by rw [hd]; rfl)
    have hsplit : l.takeWhile isPySpace ++ c :: rest = l := by
      rw [← hd]; exact List.takeWhile_append_dropWhile _ _
    have hne : stripEnd (c :: rest) ≠ [] := by
      intro he
      have := (stripEnd_eq_nil_iff _).1 he c (by simp)
      rw [hc] at this
      cases this
    have hL : stripEnd l = l.takeWhile isPySpace ++ stripEnd (c :: rest) := by
      conv_lhs => rw [← hsplit]
      rw [stripEnd_append _ _ hne]
    rw [hL, dropWhile_append_sat _ _ _
      (fun x hx => List.mem_takeWhile_imp hx)]
    have hhead : (stripEnd (c :: rest)).head? = some c := by
      rw [← prefix_head? _ _ (stripEnd_isPrefix (c :: rest)) hne]
      rfl
    exact dropWhile_eq_self_of_head _ _ (fun x hx => by
      rw [hhead] at hx
      cases hx
      exact hc)

theorem pyStrip_stripEnd (l : List Char) :
    pyStrip (stripEnd l) = pyStrip l := by
  show stripEnd ((stripEnd l).dropWhile isPySpace) = pyStrip l
  rw [dropWhile_stripEnd_comm, stripEnd_idem]
  rfl

/-! ## Structure of `splitNL` -/

theorem splitNL_nil : splitNL [] = [[]] := rfl

theorem splitNL_cons (c : Char) (rest : List Char) :
    splitNL (c :: rest) =
      if c = '\n' then [] :: splitNL rest
      else (splitNL rest).modifyHead (fun p => c :: p) := rfl

theorem splitNL_ne_nil : ∀ l : List Char, splitNL l ≠ [] := by
  intro l
  induction l with
  | nil => simp [splitNL_nil]
  | cons c rest ih =>
    rw [splitNL_cons]
    by_cases hc : c = '\n'
    · simp [hc]
    · rw [if_neg hc]
      cases h : splitNL rest with
      | nil => exact absurd h ih
      | cons q qs => simp

theorem splitNL_no_newline :
    ∀ l : List Char, ∀ p ∈ splitNL l, '\n' ∉ p := by
  intro l
  induction l with
  | nil => intro p hp; rw [splitNL_nil] at hp; simp at hp; simp [hp]
  | cons c rest ih =>
    intro p hp
    rw [splitNL_cons] at hp
    by_cases hc : c = '\n'
    · rw [if_pos hc] at hp
      rcases List.mem_cons.1 hp with hp | hp
      · simp [hp]
      · exact ih p hp
    · rw [if_neg hc] at hp
      cases hq : splitNL rest with
      | nil => exact absurd hq (splitNL_ne_nil rest)
      | cons q qs =>
        rw [hq, List.modifyHead_cons] at hp
        rcases List.mem_cons.1 hp with hp | hp
        · subst hp
          intro hmem
          rcases List.mem_cons.1 hmem with h9 | h9
          · exact hc h9.symm
          · exact ih q (by rw [hq]; simp) h9
        · exact ih p (by rw [hq]; simp [hp])

theorem splitNL_append_no_nl (a : List Char) (x : List Char)
    (ha : '\n' ∉ a) :
    splitNL (a ++ x) = (splitNL x).modifyHead (fun p => a ++ p) := by
  induction a with
  | nil =>
    cases h : splitNL x with
    | nil => exact absurd h (splitNL_ne_nil x)
    | cons q qs => simp [h]
  | cons c a2 ih =>
    have hc : ¬c = '\n' := fun h => ha (by simp [h])
    rw [List.cons_append, splitNL_cons, if_neg hc,
      ih (fun h => ha (by simp [h]))]
    cases h : splitNL x with
    | nil => exact absurd h (splitNL_ne_nil x)
    | cons q qs => simp [h]

theorem splitNL_prepend_line (a b : List Char) (ha : '\n' ∉ a) :
    splitNL (a ++ '\n' :: b) = a :: splitNL b := by
  rw [splitNL_append_no_nl a _ ha, splitNL_cons, if_pos rfl,
    List.modifyHead_cons, List.append_nil]

theorem joinWith_splitNL : ∀ x : List Char, joinWith ['\n'] (splitNL x) = x := by
  intro x
  induction x with
  | nil => rfl
  | cons c rest ih =>
    rw [splitNL_cons]
    by_cases hc : c = '\n'
    · rw [if_pos hc]
      cases hq : splitNL rest with
      | nil => exact absurd hq (splitNL_ne_nil rest)
      | cons q qs =>
        rw [hq] at ih
        rw [joinWith, List.nil_append, hc]
        rw [show (['\n'] : List Char) ++ joinWith ['\n'] (q :: qs)
          = '\n' :: joinWith ['\n'] (q :: qs) from rfl, ih]
    · rw [if_neg hc]
      cases hq : splitNL rest with
      | nil => exact absurd hq (splitNL_ne_nil rest)
      | cons q qs =>
        rw [hq] at ih
        rw [List.modifyHead_cons]
        cases qs with
        | nil =>
          rw [joinWith] at ih ⊢
          rw [← ih]
        | cons q2 qs2 =>
          rw [joinWith] at ih ⊢
          simp only [List.cons_append, List.nil_append,
            List.append_assoc] at ih ⊢
          rw [ih]

/-- Tail parts and all parts of `splitNL` are non-empty, given no double
newlines, no trailing newline, and (for the head part) no leading
newline. -/
theorem splitNL_parts :
    ∀ l : List Char, hasNLNL l = false → l.getLast? ≠ some '\n' →
      (∀ p ∈ (splitNL l).tail, p ≠ []) ∧
      (l ≠ [] → l.head? ≠ some '\n' → ∀ p ∈ splitNL l, p ≠ []) := by
  intro l
  induction l with
  | nil =>
    intro _ _
    exact ⟨by simp [splitNL_nil], fun h => absurd rfl h⟩
  | cons c rest ih =>
    intro hnn hlast
    have hrest_last : rest ≠ [] → rest.getLast? ≠ some '\n' := by
      intro hne
      rwa [show c :: rest = [c] ++ rest from rfl,
        List.getLast?_append_of_ne_nil _ hne] at hlast
    have htail : ∀ p ∈ (splitNL (c :: rest)).tail, p ≠ [] := by
      rw [splitNL_cons]
      by_cases hc : c = '\n'
      · rw [if_pos hc]
        simp only [List.tail_cons]
        cases rest with
        | nil =>
          exfalso
          apply hlast
          simp [hc]
        | cons d r2 =>
          have hd : ¬d = '\n' := by
            intro hd
            rw [hasNLNL_cons_cons] at hnn
            simp [hc, hd] at hnn
          have hnn2 : hasNLNL (d :: r2) = false := by
            rw [hasNLNL_cons_cons] at hnn
            exact (Bool.or_eq_false_iff.1 hnn).2
          exact ((ih hnn2 (hrest_last (by simp))).2 (by simp)
            (by simp [hd]))
      · rw [if_neg hc]
        cases rest with
        | nil => simp [splitNL_nil]
        | cons d r2 =>
          have hnn2 : hasNLNL (d :: r2) = false := by
            rw [hasNLNL_cons_cons] at hnn
            exact (Bool.or_eq_false_iff.1 hnn).2
          have htl := (ih hnn2 (hrest_last (by simp))).1
          cases hq : splitNL (d :: r2) with
          | nil => exact absurd hq (splitNL_ne_nil _)
          | cons q qs =>
            rw [List.modifyHead_cons]
            simp only [List.tail_cons]
            rw [hq] at htl
            simpa using htl
    refine ⟨htail, ?_⟩
    intro _ hhead
    have hc : ¬c = '\n' := by
      intro h; exact hhead (by simp [h])
    intro p hp
    rw [splitNL_cons, if_neg hc] at hp
    cases hq : splitNL rest with
    | nil => exact absurd hq (splitNL_ne_nil rest)
    | cons q qs =>
      rw [hq, List.modifyHead_cons] at hp
      rcases List.mem_cons.1 hp with hp | hp
      · simp [hp]
      · apply htail
        rw [splitNL_cons, if_neg hc, hq, List.modifyHead_cons]
        simpa using hp

/-! ## Structure of `splitNLNL` -/

theorem splitNLNL_nil : splitNLNL [] = [[]] := rfl

theorem splitNLNL_one (c : Char) : splitNLNL [c] = [[c]] := rfl

theorem splitNLNL_cons2 (c d : Char) (rest : List Char) :
    splitNLNL (c :: d :: rest) =
      if c = '\n' ∧ d = '\n' then [] :: splitNLNL rest
      else (splitNLNL (d :: rest)).modifyHead (fun p => c :: p) := rfl

theorem splitNLNL_ne_nil : ∀ l : List Char, splitNLNL l ≠ []
  | [] => by simp [splitNLNL_nil]
  | [c] => by simp [splitNLNL_one]
  | c :: d :: rest => by
    rw [splitNLNL_cons2]
    by_cases h : c = '\n' ∧ d = '\n'
    · simp [h]
    · rw [if_neg h]
      cases hq : splitNLNL (d :: rest) with
      | nil => exact absurd hq (splitNLNL_ne_nil (d :: rest))
      | cons q qs => simp

/-- The head chunk of `splitNLNL (d :: rest)` starts with `d`, when `d` does
not open a blank-line separator. -/
theorem splitNLNL_cons_shape (d : Char) (rest : List Char) (hd : d ≠ '\n') :
    ∃ q qs, splitNLNL (d :: rest) = (d :: q) :: qs := by
  cases rest with
  | nil => exact ⟨[], [], rfl⟩
  | cons e r2 =>
    rw [splitNLNL_cons2, if_neg (fun h => hd h.1)]
    cases hq : splitNLNL (e :: r2) with
    | nil => exact absurd hq (splitNLNL_ne_nil _)
    | cons q qs => exact ⟨q, qs, by simp⟩

theorem splitNLNL_no_nlnl :
    ∀ (l : List Char) (b : List Char), b ∈ splitNLNL l → hasNLNL b = false
  | [], b, hb => by
    rw [splitNLNL_nil] at hb; simp at hb; simp [hb, hasNLNL_nil]
  | [c], b, hb => by
    rw [splitNLNL_one] at hb; simp at hb; simp [hb, hasNLNL_singleton]
  | c :: d :: rest, b, hb => by
    by_cases h : c = '\n' ∧ d = '\n'
    · rw [splitNLNL_cons2, if_pos h] at hb
      rcases List.mem_cons.1 hb with hb | hb
      · simp [hb, hasNLNL_nil]
      · exact splitNLNL_no_nlnl rest b hb
    · rw [splitNLNL_cons2, if_neg h] at hb
      cases hq : splitNLNL (d :: rest) with
      | nil => exact absurd hq (splitNLNL_ne_nil _)
      | cons q qs =>
        rw [hq, List.modifyHead_cons] at hb
        rcases List.mem_cons.1 hb with hb | hb
        · subst hb
          have hq_false : hasNLNL q = false :=
            splitNLNL_no_nlnl (d :: rest) q (by rw [hq]; simp)
          by_cases hc : c = '\n'
          · have hd : d ≠ '\n' := fun hdd => h ⟨hc, hdd⟩
            obtain ⟨q', qs', hshape⟩ := splitNLNL_cons_shape d rest hd
            rw [hshape] at hq
            injection hq with hq1 hq2
            rw [← hq1]
            rw [hasNLNL_cons_cons]
            have hdq : hasNLNL (d :: q') = false :=
              splitNLNL_no_nlnl (d :: rest) (d :: q')
                (by rw [hshape]; simp)
            simp [hd, hdq]
          · cases q with
            | nil => simp [hasNLNL_singleton]
            | cons e q2 =>
              rw [hasNLNL_cons_cons]
              simp [hc, hq_false]
        · exact splitNLNL_no_nlnl (d :: rest) b (by rw [hq]; simp [hb])

/-- A string without a blank-line separator is a single chunk. -/
theorem splitNLNL_single :
    ∀ b : List Char, hasNLNL b = false → splitNLNL b = [b]
  | [], _ => rfl
  | [c], _ => rfl
  | c :: d :: rest, h => by
    rw [hasNLNL_cons_cons, Bool.or_eq_false_iff] at h
    have hcd : ¬(c = '\n' ∧ d = '\n') := by
      rintro ⟨h1, h2⟩
      simp [h1, h2] at h
    rw [splitNLNL_cons2, if_neg hcd,
      splitNLNL_single (d :: rest) h.2, List.modifyHead_cons]

/-- Splitting a blank-line-joined pair separates at the first separator. -/
theorem splitNLNL_sep :
    ∀ (b : List Char) (r : List Char), hasNLNL b = false →
      b.getLast? ≠ some '\n' →
      splitNLNL (b ++ '\n' :: '\n' :: r) = b :: splitNLNL r
  | [], r, _, _ => by rw [List.nil_append, splitNLNL_cons2, if_pos ⟨rfl, rfl⟩]
  | [c], r, _, hlast => by
    have hc : c ≠ '\n' := by
      intro h; exact hlast (by simp [h])
    rw [List.singleton_append, splitNLNL_cons2,
      if_neg (fun h => hc h.1), splitNLNL_cons2, if_pos ⟨rfl, rfl⟩,
      List.modifyHead_cons]
  | c :: d :: rest, r, hnn, hlast => by
    rw [hasNLNL_cons_cons, Bool.or_eq_false_iff] at hnn
    have hcd : ¬(c = '\n' ∧ d = '\n') := by
      rintro ⟨h1, h2⟩
      simp [h1, h2] at hnn
    have hlast2 : (d :: rest).getLast? ≠ some '\n' := by
      rwa [show c :: d :: rest = [c] ++ (d :: rest) from rfl,
        List.getLast?_append_of_ne_nil _ (by simp)] at hlast
    rw [List.cons_append, List.cons_append, splitNLNL_cons2,
      if_neg hcd, ← List.cons_append,
      splitNLNL_sep (d :: rest) r hnn.2 hlast2, List.modifyHead_cons]

/-! ## Facts about the timestamp pattern -/

theorem digit_not_space (c : Char) (h : c.isDigit = true) :
    isPySpace c = false := by
  by_contra hx
  have hws : isPySpace c = true := by
    cases hcc : isPySpace c
    · exact absurd hcc hx
    · rfl
  unfold isPySpace at hws
  simp only [Bool.or_eq_true, decide_eq_true_eq] at hws
  rcases hws with ((((h1 | h1) | h1) | h1) | h1) | h1 <;>
    (subst h1; exact absurd h (by decide))

theorem timePat_elim (l : List Char) (h : timePat l = true) :
    ∃ a b d e g h2 i j k : Char,
      l = [a, b, ':', d, e, ':', g, h2, '.', i, j, k] ∧
      a.isDigit = true ∧ b.isDigit = true ∧ d.isDigit = true ∧
      e.isDigit = true ∧ g.isDigit = true ∧ h2.isDigit = true ∧
      i.isDigit = true ∧ j.isDigit = true ∧ k.isDigit = true := by
  unfold timePat at h
  split at h
  · rename_i a b c2 d e f2 g h2 p2 i j k
    simp only [Bool.and_eq_true, decide_eq_true_eq] at h
    obtain ⟨⟨⟨⟨⟨⟨⟨⟨⟨⟨⟨ha, hb⟩, hc2⟩, hd⟩, he⟩, hf2⟩, hg⟩, hh2⟩, hp2⟩,
      hi⟩, hj⟩, hk⟩ := h
    subst hc2; subst hf2; subst hp2
    exact ⟨a, b, d, e, g, h2, i, j, k, rfl, ha, hb, hd, he, hg, hh2,
      hi, hj, hk⟩
  · cases h

theorem timePat_length (l : List Char) (h : timePat l = true) :
    l.length = 12 := by
  obtain ⟨a, b, d, e, g, h2, i, j, k, rfl, -⟩ := timePat_elim l h
  rfl

theorem timePat_ne_nil (l : List Char) (h : timePat l = true) : l ≠ [] := by
  obtain ⟨a, b, d, e, g, h2, i, j, k, rfl, -⟩ := timePat_elim l h
  simp

theorem timePat_head (l : List Char) (h : timePat l = true) :
    ∃ a r, l = a :: r ∧ a.isDigit = true := by
  obtain ⟨a, b, d, e, g, h2, i, j, k, rfl, ha, -⟩ := timePat_elim l h
  exact ⟨a, _, rfl, ha⟩

theorem timePat_getLast (l : List Char) (h : timePat l = true) :
    ∃ k, l.getLast? = some k ∧ k.isDigit = true := by
  obtain ⟨a, b, d, e, g, h2, i, j, k, rfl, -, -, -, -, -, -, -, -,
    hk⟩ := timePat_elim l h
  exact ⟨k, rfl, hk⟩

theorem timePat_no_newline (l : List Char) (h : timePat l = true) :
    '\n' ∉ l := by
  obtain ⟨a, b, d, e, g, h2, i, j, k, rfl, ha, hb, hd, he, hg, hh2,
    hi, hj, hk⟩ := timePat_elim l h
  intro hm
  simp only [List.mem_cons, List.not_mem_nil, or_false] at hm
  rcases hm with h9 | h9 | h9 | h9 | h9 | h9 | h9 | h9 | h9 | h9 | h9 | h9 <;>
    first
    | (exact absurd h9 (by decide))
    | (rw [← h9] at ha; exact absurd ha (by decide))
    | (rw [← h9] at hb; exact absurd hb (by decide))
    | (rw [← h9] at hd; exact absurd hd (by decide))
    | (rw [← h9] at he; exact absurd he (by decide))
    | (rw [← h9] at hg; exact absurd hg (by decide))
    | (rw [← h9] at hh2; exact absurd hh2 (by decide))
    | (rw [← h9] at hi; exact absurd hi (by decide))
    | (rw [← h9] at hj; exact absurd hj (by decide))
    | (rw [← h9] at hk; exact absurd hk (by decide))

theorem timePat_colon_mem (l : List Char) (h : timePat l = true) :
    ':' ∈ l := by
  obtain ⟨a, b, d, e, g, h2, i, j, k, rfl, -⟩ := timePat_elim l h
  simp

/-! ## Facts about `takeTime` and `matchTimestampLine` -/

theorem takeTime_some_inv (l t r : List Char)
    (h : takeTime l = some (t, r)) :
    timePat t = true ∧ l = t ++ r := by
  unfold takeTime at h
  by_cases hp : timePat (l.take 12) = true
  · rw [if_pos hp] at h
    obtain ⟨h1, h2⟩ := Prod.mk.injEq .. ▸ Option.some.inj h
    subst h1; subst h2
    exact ⟨hp, (List.take_append_drop 12 l).symm⟩
  · rw [if_neg hp] at h
    cases h

theorem takeTime_append (t r : List Char) (h : timePat t = true) :
    takeTime (t ++ r) = some (t, r) := by
  unfold takeTime
  rw [show (12 : Nat) = t.length from (timePat_length t h).symm,
    List.take_left, List.drop_left, if_pos h]

theorem takeTime_self (t : List Char) (h : timePat t = true) :
    takeTime t = some (t, []) := by
  unfold takeTime
  rw [show (12 : Nat) = t.length from (timePat_length t h).symm,
    List.take_length _, List.drop_length _, if_pos]
  exact h

theorem matchTimestampLine_some_inv (l t1 t2 : List Char)
    (h : matchTimestampLine l = some (t1, t2)) :
    timePat t1 = true ∧ timePat t2 = true := by
  unfold matchTimestampLine at h
  cases h1 : takeTime l with
  | none => rw [h1] at h; cases h
  | some p1 =>
    obtain ⟨u1, r1⟩ := p1
    rw [h1] at h
    dsimp only at h
    by_cases hpre : arrowChars.isPrefixOf (r1.dropWhile isPySpace) = true
    · rw [if_pos hpre] at h
      cases h2 : takeTime (((r1.dropWhile isPySpace).drop 3).dropWhile isPySpace) with
      | none => rw [h2] at h; cases h
      | some p2 =>
        obtain ⟨u2, r2⟩ := p2
        rw [h2] at h
        obtain ⟨hq1, hq2⟩ := Prod.mk.injEq .. ▸ Option.some.inj h
        subst hq1; subst hq2
        exact ⟨(takeTime_some_inv l _ _ h1).1,
          (takeTime_some_inv _ _ _ h2).1⟩
    · rw [if_neg hpre] at h
      cases h

theorem arrow_sep_eq : str " --> " = [' ', '-', '-', '>', ' '] := rfl

/-- Forward computation: a rendered timestamp line prefix-matches with
exactly its two time groups. -/
theorem matchTimestampLine_render (t1 t2 : List Char)
    (h1 : timePat t1 = true) (h2 : timePat t2 = true) :
    matchTimestampLine (t1 ++ str " --> " ++ t2) = some (t1, t2) := by
  obtain ⟨a2, r2hd, ht2, ha2⟩ := timePat_head t2 h2
  unfold matchTimestampLine
  rw [List.append_assoc, takeTime_append t1 _ h1]
  dsimp only
  have hdw : (str " --> " ++ t2).dropWhile isPySpace
      = '-' :: '-' :: '>' :: ' ' :: t2 := by
    rw [arrow_sep_eq, List.cons_append, List.dropWhile_cons,
      if_pos (by decide), List.cons_append, List.dropWhile_cons,
      if_neg (by decide)]
    rfl
  rw [hdw]
  rw [if_pos (by rfl)]
  have hdrop : (('-' :: '-' :: '>' :: ' ' :: t2).drop 3).dropWhile isPySpace
      = t2 := by
    show (' ' :: t2).dropWhile isPySpace = t2
    rw [List.dropWhile_cons, if_pos (by decide)]
    apply dropWhile_eq_self_of_head
    intro c hc
    rw [ht2] at hc
    cases hc
    exact digit_not_space a2 ha2
  rw [hdrop, takeTime_self t2 h2]

/-! ## Facts about `scanLines` -/

theorem scanLines_ts_first (ts : List Char) (rest : List (List Char))
    (ch : Option (List Char)) (hdig : isDigitLine (pyStrip ts) = false)
    (harr : containsArrow ts = true) :
    scanLines ch (ts :: rest) = some (ch, pyStrip ts, rest) := by
  unfold scanLines
  rw [if_neg (by simp [hdig]), if_pos harr]

theorem scanLines_body_suffix :
    ∀ (lines : List (List Char)) (ch ch2 : Option (List Char))
      (ts : List Char) (body : List (List Char)),
      scanLines ch lines = some (ch2, ts, body) → body <:+ lines := by
  intro lines
  induction lines with
  | nil => intro ch ch2 ts body h; cases h
  | cons line rest ih =>
    intro ch ch2 ts body h
    unfold scanLines at h
    by_cases hd : isDigitLine (pyStrip line) = true
    · rw [if_pos (by simp [hd])] at h
      exact (ih _ _ _ _ h).trans (List.suffix_cons line rest)
    · rw [if_neg (by simp_all)] at h
      by_cases ha : containsArrow line = true
      · rw [if_pos ha] at h
        simp only [Option.some.injEq, Prod.mk.injEq] at h
        obtain ⟨-, -, h3⟩ := h
        subst h3
        exact List.suffix_cons line rest
      · rw [if_neg ha] at h
        exact (ih _ _ _ _ h).trans (List.suffix_cons line rest)

/-! ## Full inversion of `speakerSplit` -/

theorem speakerSplit_some_inv (ft sp tx : List Char)
    (h : speakerSplit ft = some (sp, tx)) :
    sp = pyStrip (ft.takeWhile (fun c => c ≠ ':')) ∧
    ∃ c rest, ft.dropWhile (fun c => c ≠ ':') = c :: rest ∧
      tx = pyStrip (rest.dropWhile isPySpace) := by
  unfold speakerSplit at h
  cases hd : ft.dropWhile (fun c => c ≠ ':') with
  | nil => rw [hd] at h; cases h
  | cons c rest =>
    rw [hd] at h
    dsimp only at h
    by_cases hp : ft.takeWhile (fun c => c ≠ ':') = []
    · rw [if_pos hp] at h; cases h
    · rw [if_neg hp] at h
      obtain ⟨h1, h2⟩ := Prod.mk.injEq .. ▸ Option.some.inj h
      exact ⟨h1.symm, c, rest, rfl, h2.symm⟩

/-! ## The segment well-formedness invariant -/

/-- Invariant satisfied by every parser-emitted (and consolidated) segment:
well-shaped times, stripped colon-free speaker, stripped text, and no
blank line embedded in speaker or text.  These are exactly the facts that
make one rendered block re-parse to the same field values. -/
def GoodSeg (s : TranscriptSegment) : Prop :=
  timePat s.start_time = true ∧ timePat s.end_time = true ∧
  pyStrip s.speaker = s.speaker ∧ ':' ∉ s.speaker ∧
  hasNLNL s.speaker = false ∧
  pyStrip s.text = s.text ∧ hasNLNL s.text = false

theorem mem_of_getLast?_eq (l : List Char) (a : Char)
    (h : l.getLast? = some a) : a ∈ l := by
  rcases List.mem_getLast?_eq_getLast (l := l) (x := a)
    (by simp [Option.mem_def, h]) with ⟨hne, rfl⟩
  exact List.getLast_mem hne

theorem joinWith_head (sep : List Char) (y : List Char)
    (rest : List (List Char)) (hy : y ≠ []) :
    (joinWith sep (y :: rest)).head? = y.head? := by
  cases rest with
  | nil => rfl
  | cons z rest2 =>
    rw [joinWith, List.append_assoc, head?_append_left y _ hy]

theorem joinWith_nl_noNLNL :
    ∀ ps : List (List Char), (∀ p ∈ ps, p ≠ [] ∧ '\n' ∉ p) →
      hasNLNL (joinWith ['\n'] ps) = false
  | [], _ => rfl
  | [x], h => hasNLNL_of_not_mem x (h x (by simp)).2
  | x :: y :: rest, h => by
    have hx := h x (by simp)
    have hy := h y (by simp)
    have hJ : hasNLNL (joinWith ['\n'] (y :: rest)) = false :=
      joinWith_nl_noNLNL (y :: rest) (fun p hp => h p (by simp [hp]))
    rw [joinWith, List.append_assoc]
    apply hasNLNL_append_of
    · exact hasNLNL_of_not_mem x hx.2
    · apply hasNLNL_append_of
      · exact hasNLNL_singleton '\n'
      · exact hJ
      · right
        rw [joinWith_head _ y rest hy.1]
        intro hc
        exact hy.2 (List.mem_of_mem_head? (by simp [hc]))
    · left
      intro hc
      exact hx.2 (mem_of_getLast?_eq x '\n' hc)

theorem stripped_head_ne_nl (b : List Char) (hb : pyStrip b = b) :
    b.head? ≠ some '\n' := by
  intro h
  have := stripped_head_false b hb '\n' h
  exact absurd this (by decide)

theorem stripped_last_ne_nl (b : List Char) (hb : pyStrip b = b) :
    b.getLast? ≠ some '\n' := by
  intro h
  have := stripped_last_false b hb '\n' h
  exact absurd this (by decide)

theorem mergeText_noNLNL (a b : List Char) (ha : pyStrip a = a)
    (hb : pyStrip b = b) (hna : hasNLNL a = false)
    (hnb : hasNLNL b = false) : hasNLNL (mergeText a b) = false := by
  rcases eq_or_ne a [] with h1 | h1
  · subst h1; rwa [mergeText_nil_left]
  · rcases eq_or_ne b [] with h2 | h2
    · subst h2; rwa [mergeText_nil_right]
    · unfold mergeText
      rw [if_pos ⟨h1, h2⟩,
        show a ++ '\n' :: b = a ++ (['\n'] ++ b) from rfl]
      exact hasNLNL_append_of _ _ hna
        (hasNLNL_append_of _ _ (hasNLNL_singleton '\n') hnb
          (Or.inr (stripped_head_ne_nl b hb)))
        (Or.inl (stripped_last_ne_nl a ha))

theorem joinNonEmpty_noNLNL :
    ∀ ts : List (List Char),
      (∀ t ∈ ts, pyStrip t = t ∧ hasNLNL t = false) →
      hasNLNL (joinNonEmpty ts) = false := by
  intro ts
  induction ts with
  | nil => intro _; rfl
  | cons x ts ih =>
    intro h
    rw [joinNonEmpty_cons]
    exact mergeText_noNLNL _ _ (h x (by simp)).1
      (joinNonEmpty_stripped ts (fun t ht => (h t (by simp [ht])).1))
      (h x (by simp)).2
      (ih (fun t ht => h t (by simp [ht])))

/-! ## Every parsed segment is well-formed -/

theorem parseBlock_good (block : List Char) (s : TranscriptSegment)
    (hb : hasNLNL block = false) (h : parseBlock block = some s) :
    GoodSeg s := by
  obtain ⟨ch, tsLine, body, t1, t2, hscan, hbody, hm, hcase⟩ :=
    parseBlock_inv block s h
  have ht := matchTimestampLine_some_inv _ _ _ hm
  have hpb : hasNLNL (pyStrip block) = false :=
    hasNLNL_false_of_isInfix _ _ hb (pyStrip_isInfix block)
  have hbne : pyStrip block ≠ [] := by
    intro he
    rw [parseBlock, he] at h
    simp [parseBlockCore] at h
  have hstr : pyStrip (pyStrip block) = pyStrip block := pyStrip_idem block
  have hlines_ne : ∀ p ∈ splitNL (pyStrip block), p ≠ [] :=
    (splitNL_parts (pyStrip block) hpb
      (stripped_last_ne_nl _ hstr)).2 hbne (stripped_head_ne_nl _ hstr)
  have hbs := scanLines_body_suffix _ _ _ _ _ hscan
  have hft : hasNLNL (joinWith ['\n'] body) = false :=
    joinWith_nl_noNLNL body (fun p hp =>
      ⟨hlines_ne p (hbs.subset hp),
        fun hmm => splitNL_no_newline _ p (hbs.subset hp) hmm⟩)
  rcases hcase with ⟨sp, tx, hsp, rfl⟩ | ⟨-, rfl⟩
  · obtain ⟨hsp1, c0, rest0, hdrop, htx⟩ :=
      speakerSplit_some_inv _ sp tx hsp
    have hsp_infix : sp <:+: joinWith ['\n'] body := by
      rw [hsp1]
      exact (pyStrip_isInfix _).trans (List.takeWhile_prefix _).isInfix
    have htx_infix : tx <:+: joinWith ['\n'] body := by
      rw [htx]
      refine (pyStrip_isInfix _).trans
        (((List.dropWhile_suffix isPySpace).isInfix).trans ?_)
      refine ((List.suffix_cons c0 rest0).isInfix).trans ?_
      rw [← hdrop]
      exact (List.dropWhile_suffix _).isInfix
    refine ⟨ht.1, ht.2, ?_, ?_, ?_, ?_, ?_⟩
    · show pyStrip sp = sp
      rw [hsp1]
      exact pyStrip_idem _
    · show ':' ∉ sp
      intro hc
      rw [hsp1] at hc
      have hc2 : ':' ∈ (joinWith ['\n'] body).takeWhile
          (fun c => c ≠ ':') := (pyStrip_isInfix _).subset hc
      have := List.mem_takeWhile_imp hc2
      simp at this
    · show hasNLNL sp = false
      exact hasNLNL_false_of_isInfix _ _ hft hsp_infix
    · show pyStrip (pyStrip tx) = pyStrip tx
      exact pyStrip_idem tx
    · show hasNLNL (pyStrip tx) = false
      exact hasNLNL_false_of_isInfix _ _ hft
        ((pyStrip_isInfix tx).trans htx_infix)
  · refine ⟨ht.1, ht.2, ?_, ?_, ?_, ?_, ?_⟩
    · show pyStrip (str "UNKNOWN") = str "UNKNOWN"
      decide
    · show ':' ∉ str "UNKNOWN"
      decide
    · show hasNLNL (str "UNKNOWN") = false
      decide
    · show pyStrip (pyStrip (pyStrip (joinWith ['\n'] body)))
        = pyStrip (pyStrip (joinWith ['\n'] body))
      exact pyStrip_idem _
    · show hasNLNL (pyStrip (pyStrip (joinWith ['\n'] body))) = false
      exact hasNLNL_false_of_isInfix _ _ hft
        ((pyStrip_isInfix _).trans (pyStrip_isInfix _))

theorem parse_good (content : List Char) :
    ∀ s ∈ parse_transcript_file content, GoodSeg s := by
  intro s hs
  unfold parse_transcript_file at hs
  obtain ⟨b, hbmem, hpb⟩ := List.mem_filterMap.1 hs
  exact parseBlock_good b s (splitNLNL_no_nlnl _ b hbmem) hpb

theorem getLastD_mem : ∀ (r : List TranscriptSegment)
    (a : TranscriptSegment), (a :: r).getLastD emptySeg ∈ a :: r := by
  intro r
  induction r with
  | nil => intro a; simp [List.getLastD_cons]
  | cons b r2 ih =>
    intro a
    rw [List.getLastD_cons]
    exact List.mem_cons_of_mem a (ih b)

/-- Consolidation preserves the well-formedness invariant. -/
theorem consolidate_good (l : List TranscriptSegment)
    (h : ∀ s ∈ l, GoodSeg s) :
    ∀ s ∈ consolidate_segments l, GoodSeg s := by
  intro s hs
  rw [consolidate_eq_map_collapse] at hs
  obtain ⟨r, hr, rfl⟩ := List.mem_map.1 hs
  have hmem : ∀ x ∈ r, GoodSeg x := fun x hx =>
    h x (by rw [← runs_join l]; exact List.mem_flatten.2 ⟨r, hr, hx⟩)
  have hrne : r ≠ [] := runs_no_nil_chunk l r hr
  obtain ⟨a, r2, rfl⟩ := List.exists_cons_of_ne_nil hrne
  have hhead : GoodSeg a := hmem a (by simp)
  have hlastmem := getLastD_mem r2 a
  have hlast : GoodSeg ((a :: r2).getLastD emptySeg) := hmem _ hlastmem
  have htexts : ∀ t ∈ (a :: r2).map (fun s => s.text),
      pyStrip t = t ∧ hasNLNL t = false := by
    intro t ht
    obtain ⟨x, hx, rfl⟩ := List.mem_map.1 ht
    exact ⟨(hmem x hx).2.2.2.2.2.1, (hmem x hx).2.2.2.2.2.2⟩
  refine ⟨hhead.1, hlast.2.1, hhead.2.2.1, hhead.2.2.2.1,
    hhead.2.2.2.2.1, ?_, ?_⟩
  · show pyStrip (joinNonEmpty ((a :: r2).map (fun s => s.text))) = _
    exact joinNonEmpty_stripped _ (fun t ht => (htexts t ht).1)
  · show hasNLNL (joinNonEmpty ((a :: r2).map (fun s => s.text))) = false
    exact joinNonEmpty_noNLNL _ htexts

/-! ## Re-parsing one rendered block -/

/-- What follows the colon in a rendered `"<speaker>: <text>"` body after
the block is stripped: nothing when the text is empty (the trailing space
is stripped), otherwise the space and the text. -/
def colonTail (tx : List Char) : List Char := if tx = [] then [] else ' ' :: tx

theorem takeWhile_append_sat (p : Char → Bool) (u y : List Char)
    (h : ∀ x ∈ u, p x) : (u ++ y).takeWhile p = u ++ y.takeWhile p := by
  induction u with
  | nil => rfl
  | cons a u2 ih =>
    rw [List.cons_append, List.takeWhile_cons _ _ _, if_pos (h a (by simp)),
      ih (fun x hx => h x (by simp [hx])), List.cons_append]

theorem stripEnd_append_ws (x : List Char) (c : Char)
    (hc : isPySpace c = true) : stripEnd (x ++ [c]) = stripEnd x := by
  unfold stripEnd
  rw [List.reverse_append, List.reverse_singleton, List.singleton_append,
    List.dropWhile_cons, if_pos hc]

theorem stripEnd_ne_nil_of_head (y : List Char) (a : Char)
    (ha : y.head? = some a) (hws : isPySpace a = false) :
    stripEnd y ≠ [] := by
  intro he
  have hmem : a ∈ y := List.mem_of_mem_head? (by simp [ha])
  have := (stripEnd_eq_nil_iff y).1 he a hmem
  rw [hws] at this
  cases this

/-- The timestamp line of a rendered segment. -/
def tsLineOf (s : TranscriptSegment) : List Char :=
  s.start_time ++ str " --> " ++ s.end_time

theorem segStr_decomp (s : TranscriptSegment) :
    segStr s
      = tsLineOf s ++ '\n' :: (s.speaker ++ ':' :: ' ' :: s.text) := rfl

theorem tsLineOf_ne_nil (s : TranscriptSegment) (hg : GoodSeg s) :
    tsLineOf s ≠ [] := by
  unfold tsLineOf
  intro h
  rcases List.append_eq_nil.1 h with ⟨h1, -⟩
  rcases List.append_eq_nil.1 h1 with ⟨h2, -⟩
  exact timePat_ne_nil _ hg.1 h2

theorem tsLineOf_head (s : TranscriptSegment) (hg : GoodSeg s) :
    ∃ a, (tsLineOf s).head? = some a ∧ a.isDigit = true := by
  obtain ⟨a, r, hst, ha⟩ := timePat_head _ hg.1
  refine ⟨a, ?_, ha⟩
  unfold tsLineOf
  rw [head?_append_left _ _ (by
      intro h
      rcases List.append_eq_nil.1 h with ⟨h2, -⟩
      exact timePat_ne_nil _ hg.1 h2),
    head?_append_left _ _ (timePat_ne_nil _ hg.1), hst]
  rfl

theorem segStr_head (s : TranscriptSegment) (hg : GoodSeg s) :
    ∃ a, (segStr s).head? = some a ∧ a.isDigit = true := by
  obtain ⟨a, hha, ha⟩ := tsLineOf_head s hg
  refine ⟨a, ?_, ha⟩
  rw [segStr_decomp, head?_append_left _ _ (tsLineOf_ne_nil s hg), hha]

theorem tsLineOf_no_newline (s : TranscriptSegment) (hg : GoodSeg s) :
    '\n' ∉ tsLineOf s := by
  intro hm
  unfold tsLineOf at hm
  rcases List.mem_append.1 hm with hm | hm
  · rcases List.mem_append.1 hm with hm | hm
    · exact timePat_no_newline _ hg.1 hm
    · rw [arrow_sep_eq] at hm
      simp at hm
  · exact timePat_no_newline _ hg.2.1 hm

theorem tsLineOf_getLast (s : TranscriptSegment) (hg : GoodSeg s) :
    ∃ k, (tsLineOf s).getLast? = some k ∧ k.isDigit = true := by
  obtain ⟨k, hk, hkd⟩ := timePat_getLast _ hg.2.1
  refine ⟨k, ?_, hkd⟩
  unfold tsLineOf
  rw [List.getLast?_append_of_ne_nil _ (timePat_ne_nil _ hg.2.1), hk]

theorem tsLineOf_stripped (s : TranscriptSegment) (hg : GoodSeg s) :
    pyStrip (tsLineOf s) = tsLineOf s := by
  obtain ⟨a, hha, ha⟩ := tsLineOf_head s hg
  obtain ⟨k, hk, hkd⟩ := tsLineOf_getLast s hg
  apply pyStrip_eq_self_of
  · intro c hc
    rw [hha] at hc
    cases hc
    exact digit_not_space a ha
  · intro c hc
    rw [hk] at hc
    cases hc
    exact digit_not_space k hkd

theorem tsLineOf_not_digitLine (s : TranscriptSegment) (hg : GoodSeg s) :
    isDigitLine (tsLineOf s) = false := by
  have hcolon : ':' ∈ tsLineOf s := by
    unfold tsLineOf
    exact List.mem_append.2 (Or.inl (List.mem_append.2
      (Or.inl (timePat_colon_mem _ hg.1))))
  unfold isDigitLine
  have hall : (tsLineOf s).all Char.isDigit = false :=
    List.all_eq_false.2 ⟨':', hcolon, by decide⟩
  rw [hall, Bool.and_false]

theorem containsArrow_of_infix (l : List Char)
    (h : arrowChars <:+: l) : containsArrow l = true := by
  obtain ⟨t, hpre, hsuf⟩ := List.infix_iff_prefix_suffix.1 h
  unfold containsArrow
  rw [List.any_eq_true]
  exact ⟨t, (List.mem_tails _ _).2 hsuf,
    List.isPrefixOf_iff_prefix.2 hpre⟩

theorem tsLineOf_containsArrow (s : TranscriptSegment) :
    containsArrow (tsLineOf s) = true := by
  apply containsArrow_of_infix
  have h1 : arrowChars <:+: str " --> " :=
    ⟨[' '], [' '], by rw [arrow_sep_eq]; rfl⟩
  refine h1.trans ⟨s.start_time, s.end_time, ?_⟩
  unfold tsLineOf
  simp [List.append_assoc]

/-- The stripped rendered block: identical except that an empty text's
trailing space is removed. -/
theorem pyStrip_segStr (s : TranscriptSegment) (hg : GoodSeg s) :
    pyStrip (segStr s)
      = tsLineOf s ++ '\n' :: (s.speaker ++ ':' :: colonTail s.text) := by
  obtain ⟨a, hha, had⟩ := segStr_head s hg
  have hfront : (segStr s).dropWhile isPySpace = segStr s :=
    dropWhile_eq_self_of_head _ _ (fun c hc => by
      rw [hha] at hc
      cases hc
      exact digit_not_space a had)
  show stripEnd ((segStr s).dropWhile isPySpace) = _
  rw [hfront]
  rcases eq_or_ne s.text [] with htx | htx
  · have hsplit : segStr s
        = (tsLineOf s ++ '\n' :: (s.speaker ++ [':'])) ++ [' '] := by
      rw [segStr_decomp, htx]
      simp
    rw [hsplit, stripEnd_append_ws _ _ (by decide)]
    have hlast : (tsLineOf s ++ '\n' :: (s.speaker ++ [':'])).getLast?
        = some ':' := by
      rw [List.getLast?_append_of_ne_nil _ (by simp),
        show '\n' :: (s.speaker ++ [':']) = ['\n'] ++ (s.speaker ++ [':'])
          from rfl,
        List.getLast?_append_of_ne_nil _ (by simp),
        List.getLast?_append_of_ne_nil _ (by simp)]
      rfl
    rw [stripEnd_eq_self_of_last _ (fun c hc => by
      rw [hlast] at hc
      cases hc
      decide)]
    rw [colonTail, if_pos htx]
  · have hlasttx : ∃ k, s.text.getLast? = some k ∧ isPySpace k = false := by
      cases hkk : s.text.getLast? with
      | none => exact absurd (List.getLast?_eq_none_iff.1 hkk) htx
      | some k =>
        exact ⟨k, rfl, stripped_last_false _ hg.2.2.2.2.2.1 k hkk⟩
    obtain ⟨k, hk, hkws⟩ := hlasttx
    have hlast : (segStr s).getLast? = some k := by
      rw [segStr_decomp,
        List.getLast?_append_of_ne_nil _ (by simp),
        show '\n' :: (s.speaker ++ ':' :: ' ' :: s.text)
          = ['\n'] ++ (s.speaker ++ ':' :: ' ' :: s.text) from rfl,
        List.getLast?_append_of_ne_nil _ (by simp),
        List.getLast?_append_of_ne_nil _ (by simp),
        show ':' :: ' ' :: s.text = [':', ' '] ++ s.text from rfl,
        List.getLast?_append_of_ne_nil _ htx, hk]
    rw [stripEnd_eq_self_of_last _ (fun c hc => by
      rw [hlast] at hc
      cases hc
      exact hkws)]
    rw [segStr_decomp, colonTail, if_neg htx]

theorem segStr_noNLNL (s : TranscriptSegment) (hg : GoodSeg s) :
    hasNLNL (segStr s) = false := by
  obtain ⟨ht1, ht2, hsps, hspc, hspn, htxs, htxn⟩ := hg
  rw [segStr_decomp]
  apply hasNLNL_append_of
  · exact hasNLNL_of_not_mem _ (tsLineOf_no_newline s
      ⟨ht1, ht2, hsps, hspc, hspn, htxs, htxn⟩)
  · rw [show '\n' :: (s.speaker ++ ':' :: ' ' :: s.text)
      = ['\n'] ++ (s.speaker ++ ':' :: ' ' :: s.text) from rfl]
    apply hasNLNL_append_of
    · exact hasNLNL_singleton '\n'
    · apply hasNLNL_append_of
      · exact hspn
      · rw [hasNLNL_cons_cons]
        have h4 : hasNLNL (' ' :: s.text) = false := by
          cases htx : s.text with
          | nil => rfl
          | cons c t2 =>
            rw [hasNLNL_cons_cons]
            rw [htx] at htxn
            simp [htxn]
        simp [h4]
      · right
        simp
    · right
      cases hsp : s.speaker with
      | nil => simp
      | cons c sp2 =>
        rw [List.cons_append]
        have := stripped_head_ne_nl s.speaker hsps
        rw [hsp] at this
        simpa using this
  · left
    obtain ⟨k, hk, hkd⟩ := tsLineOf_getLast s
      ⟨ht1, ht2, hsps, hspc, hspn, htxs, htxn⟩
    rw [hk]
    intro hc
    cases hc
    exact absurd hkd (by decide)

theorem segStr_getLast_ne_nl (s : TranscriptSegment) (hg : GoodSeg s) :
    (segStr s).getLast? ≠ some '\n' := by
  rw [segStr_decomp,
    List.getLast?_append_of_ne_nil _ (by simp),
    show '\n' :: (s.speaker ++ ':' :: ' ' :: s.text)
      = ['\n'] ++ (s.speaker ++ ':' :: ' ' :: s.text) from rfl,
    List.getLast?_append_of_ne_nil _ (by simp),
    List.getLast?_append_of_ne_nil _ (by simp)]
  cases htx : s.text with
  | nil => simp
  | cons c t2 =>
    rw [show ':' :: ' ' :: c :: t2 = [':', ' '] ++ (c :: t2) from rfl,
      List.getLast?_append_of_ne_nil _ (by simp)]
    have := stripped_last_ne_nl s.text hg.2.2.2.2.2.1
    rw [htx] at this
    exact this

/-- **The block round trip**: a rendered well-formed segment with non-empty
speaker re-parses to itself, with the chapter number dropped. -/
theorem parseBlock_segStr (s : TranscriptSegment) (hg : GoodSeg s)
    (hsp : s.speaker ≠ []) :
    parseBlock (segStr s) = some (dropChapter s) := by
  obtain ⟨ht1, ht2, hsps, hspc, hspn, htxs, htxn⟩ := hg
  have hgg : GoodSeg s := ⟨ht1, ht2, hsps, hspc, hspn, htxs, htxn⟩
  have hB := pyStrip_segStr s hgg
  unfold parseBlock
  rw [hB]
  have hsplit : splitNL (tsLineOf s ++ '\n' ::
      (s.speaker ++ ':' :: colonTail s.text))
      = tsLineOf s :: splitNL (s.speaker ++ ':' :: colonTail s.text) :=
    splitNL_prepend_line _ _ (tsLineOf_no_newline s hgg)
  unfold parseBlockCore
  rw [if_neg (by simp), hsplit]
  rw [if_neg (by
    simp only [List.length_cons, Nat.not_lt]
    have h2 := splitNL_ne_nil (s.speaker ++ ':' :: colonTail s.text)
    cases h3 : splitNL (s.speaker ++ ':' :: colonTail s.text) with
    | nil => exact absurd h3 h2
    | cons q qs => simp)]
  rw [scanLines_ts_first _ _ _
    (by rw [tsLineOf_stripped s hgg]; exact tsLineOf_not_digitLine s hgg)
    (tsLineOf_containsArrow s)]
  dsimp only
  rw [if_neg (splitNL_ne_nil _), tsLineOf_stripped s hgg]
  rw [show matchTimestampLine (tsLineOf s)
      = some (s.start_time, s.end_time) from
    matchTimestampLine_render _ _ ht1 ht2]
  rw [joinWith_splitNL]
  have hsat : ∀ x ∈ s.speaker, (fun c => decide (c ≠ ':')) x = true := by
    intro x hx
    simp only [decide_eq_true_eq]
    intro he
    exact hspc (he ▸ hx)
  have hdropY : (s.speaker ++ ':' :: colonTail s.text).dropWhile
      (fun c => c ≠ ':') = ':' :: colonTail s.text := by
    rw [dropWhile_append_sat _ _ _ hsat, List.dropWhile_cons,
      if_neg (by simp)]
  have htakeY : (s.speaker ++ ':' :: colonTail s.text).takeWhile
      (fun c => c ≠ ':') = s.speaker := by
    rw [takeWhile_append_sat _ _ _ hsat, List.takeWhile_cons _ _ _,
      if_neg (by simp), List.append_nil]
  have htail : (colonTail s.text).dropWhile isPySpace = s.text := by
    unfold colonTail
    rcases eq_or_ne s.text [] with h5 | h5
    · simp [h5]
    · rw [if_neg h5, List.dropWhile_cons, if_pos (by decide)]
      apply dropWhile_eq_self_of_head
      intro c hc
      exact stripped_head_false s.text htxs c hc
  rw [show speakerSplit (s.speaker ++ ':' :: colonTail s.text)
      = some (s.speaker, s.text) from by
    unfold speakerSplit
    rw [hdropY]
    dsimp only
    rw [htakeY, if_neg hsp, htail, htxs, hsps]]
  unfold mkSegment dropChapter
  dsimp only
  rw [htxs]

/-! ## The full render/parse round trip -/

theorem parseBlock_stripEnd (x : List Char) :
    parseBlock (stripEnd x) = parseBlock x := by
  unfold parseBlock
  rw [pyStrip_stripEnd]

theorem render_cons_cons (s s2 : TranscriptSegment)
    (l : List TranscriptSegment) :
    write_consolidated_transcript (s :: s2 :: l)
      = segStr s ++ str "\n\n"
        ++ write_consolidated_transcript (s2 :: l) := rfl

theorem render_head (s : TranscriptSegment) (l : List TranscriptSegment)
    (hg : GoodSeg s) :
    ∃ a, (write_consolidated_transcript (s :: l)).head? = some a ∧
      a.isDigit = true := by
  obtain ⟨a, hha, ha⟩ := segStr_head s hg
  refine ⟨a, ?_, ha⟩
  unfold write_consolidated_transcript
  rw [List.map_cons, joinWith_head _ _ _ (by
    intro h
    rw [h] at hha
    cases hha)]
  exact hha

theorem render_parse_aux :
    ∀ l : List TranscriptSegment,
      (∀ s ∈ l, GoodSeg s ∧ s.speaker ≠ []) → l ≠ [] →
      (splitNLNL (stripEnd (write_consolidated_transcript l))).filterMap
          parseBlock
        = l.map dropChapter
  | [], _, hne => absurd rfl hne
  | [s], hg, _ => by
    have hgs := hg s (by simp)
    have h1 : write_consolidated_transcript [s] = segStr s := rfl
    rw [h1, splitNLNL_single _ (hasNLNL_false_of_isInfix _ _
      (segStr_noNLNL s hgs.1) (stripEnd_isPrefix (segStr s)).isInfix)]
    rw [List.filterMap_cons, parseBlock_stripEnd,
      parseBlock_segStr s hgs.1 hgs.2]
    rfl
  | s :: s2 :: l, hg, _ => by
    have hgs := hg s (by simp)
    have hgs2 := hg s2 (by simp)
    obtain ⟨a, hha, ha⟩ := render_head s2 l hgs2.1
    have hXne : stripEnd (write_consolidated_transcript (s2 :: l)) ≠ [] :=
      stripEnd_ne_nil_of_head _ a hha (digit_not_space a ha)
    rw [render_cons_cons, stripEnd_append _ _ hXne]
    rw [show (segStr s ++ str "\n\n")
        ++ stripEnd (write_consolidated_transcript (s2 :: l))
        = segStr s ++ '\n' :: '\n' ::
          stripEnd (write_consolidated_transcript (s2 :: l)) from by
      rw [List.append_assoc]
      rfl]
    rw [splitNLNL_sep (segStr s) _ (segStr_noNLNL s hgs.1)
      (segStr_getLast_ne_nl s hgs.1)]
    rw [List.filterMap_cons, parseBlock_segStr s hgs.1 hgs.2]
    rw [render_parse_aux (s2 :: l) (fun x hx => hg x (by simp [hx]))
      (by simp)]
    rfl

/-- The round trip at the list level: rendering a list of well-formed
segments with non-empty speakers and re-parsing yields the same segments
without chapter numbers. -/
theorem parse_render (l : List TranscriptSegment)
    (hg : ∀ s ∈ l, GoodSeg s ∧ s.speaker ≠ []) :
    parse_transcript_file (write_consolidated_transcript l)
      = l.map dropChapter := by
  cases l with
  | nil => decide
  | cons s l2 =>
    obtain ⟨a, hha, ha⟩ := render_head s l2 (hg s (by simp)).1
    unfold parse_transcript_file
    rw [show pyStrip (write_consolidated_transcript (s :: l2))
        = stripEnd (write_consolidated_transcript (s :: l2)) from by
      unfold pyStrip
      rw [dropWhile_eq_self_of_head _ _ (fun c hc => by
        rw [hha] at hc
        cases hc
        exact digit_not_space a ha)]]
    exact render_parse_aux (s :: l2) hg (by simp)

/-- **C7 amended**: for every input whose consolidated parse has only
non-empty speakers, re-parsing the rendered consolidation yields exactly
the consolidated segments with `chapter_num` absent (all other field
values preserved). -/
theorem roundtrip_stable (content : List Char)
    (h : ∀ s ∈ consolidate_segments (parse_transcript_file content),
      s.speaker ≠ []) :
    parse_transcript_file (write_consolidated_transcript
        (consolidate_segments (parse_transcript_file content)))
      = (consolidate_segments (parse_transcript_file content)).map
          dropChapter :=
  parse_render _ (fun s hs =>
    ⟨consolidate_good _ (parse_good content) s hs, h s hs⟩)

/-- **C7 amended witness**: the round trip applied to the three-block
scenario input. -/
theorem roundtrip_stable_witness :
    parse_transcript_file (write_consolidated_transcript
        (consolidate_segments (parse_transcript_file
          (str "00:00:00.000 --> 00:00:02.000\nSPEAKER_A: Hi\n\n00:00:02.000 --> 00:00:04.000\nSPEAKER_A: there\n\n00:00:04.000 --> 00:00:06.000\nSPEAKER_B: Hello"))))
      = (consolidate_segments (parse_transcript_file
          (str "00:00:00.000 --> 00:00:02.000\nSPEAKER_A: Hi\n\n00:00:02.000 --> 00:00:04.000\nSPEAKER_A: there\n\n00:00:04.000 --> 00:00:06.000\nSPEAKER_B: Hello"))).map
          dropChapter :=
  roundtrip_stable
    (str "00:00:00.000 --> 00:00:02.000\nSPEAKER_A: Hi\n\n00:00:02.000 --> 00:00:04.000\nSPEAKER_A: there\n\n00:00:04.000 --> 00:00:06.000\nSPEAKER_B: Hello")
    (by decide)

end Consolidator
